import Mathlib

/-!
fakerpc: reconstruction of connections from a traffic log, and the replay server.

A shallow embedding of `fakerpc.go` and `server.go`.

* Go byte slices and Go strings are lists of byte values (`List Nat`); a nil slice that the
  code tells apart from an empty one (`Connection.ReqBody`, `Connection.Res`) is an `Option`.
* A `*net.TCPAddr` is an `Option TCPAddr`, `none` standing for the nil pointer.
* The functions of the Go standard library that the code calls and that are not simple enough
  to spell out (`(*net.TCPAddr).String`, `http.ReadRequest`) are fields of `GoLib`; the
  reconstruction and its theorems are parametric in them, and `sampleLib` is a stand-in used
  to evaluate the definitions on concrete logs.
-/

set_option autoImplicit false

namespace Fakerpc

/-! ## Bytes -/

/-- A Go `[]byte` (or the bytes of a Go `string`). -/
abbrev Bytes := List Nat

/-- The bytes of an ASCII string literal. -/
def ascii (s : String) : Bytes := s.data.map Char.toNat

/-- The header/body boundary `"\r\n\r\n"`. -/
def boundary : Bytes := [13, 10, 13, 10]

/-- The search loop of `bytes.Index`: `i` is the offset of the remaining input. -/
def indexFrom (sep : Bytes) : Bytes → Nat → Int
  | [], i => if sep.isPrefixOf [] then (i : Int) else -1
  | b :: rest, i => if sep.isPrefixOf (b :: rest) then (i : Int) else indexFrom sep rest (i + 1)

/-- Go `bytes.Index(p, sep)`: the index of the first instance of `sep` in `p`, or `-1`. -/
def bytesIndex (p sep : Bytes) : Int := indexFrom sep p 0

/-- Go `SplitHTTP`: header through the first boundary, body after it; both empty without one. -/
def SplitHTTP (p : Bytes) : Bytes × Bytes :=
  let n := bytesIndex p boundary
  if n ≠ -1 then (p.take (n + 4).toNat, p.drop (n + 4).toNat) else ([], [])

/-- The boundary occurs in `p` at offset `n` and at no smaller offset. -/
def FirstBoundary (p : Bytes) (n : Nat) : Prop :=
  boundary <+: p.drop n ∧ ∀ m, m < n → ¬ boundary <+: p.drop m

/-- The reference split of the specification, as a relation between a buffer and a
header/body pair. -/
def IsReferenceSplit (p : Bytes) (hb : Bytes × Bytes) : Prop :=
  (boundary <:+: p → ∃ n, FirstBoundary p n) ∧
  (∀ n, FirstBoundary p n →
      hb.1 = p.take (n + 4) ∧ hb.2 = p.drop (n + 4) ∧ hb.1 ++ hb.2 = p ∧
      boundary <:+ hb.1 ∧ ∀ m, boundary <+: hb.1.drop m → m = n) ∧
  (¬ boundary <:+: p → hb = ([], []))

/-! ## Data model (`fakerpc.go`) -/

/-- Go `error` values: `io.EOF`, or any other error, known by its message. -/
inductive Err where
  | EOF
  | other (msg : Bytes)
deriving DecidableEq, Repr

/-- Go `err.Error()`. -/
def Err.Error : Err → Bytes
  | .EOF => ascii "EOF"
  | .other msg => msg

/-- Go `net.TCPAddr`. -/
structure TCPAddr where
  IP : Bytes
  Port : Int
  Zone : Bytes
deriving DecidableEq, Repr

/-- Go `Transmission`; `Src` and `Dst` are pointers, `none` is nil. -/
structure Transmission where
  Src : Option TCPAddr
  Dst : Option TCPAddr
  Raw : Bytes
deriving DecidableEq, Repr

/-- Go `Log`; `Network` is the pair of the IP and the mask of the `net.IPNet`. -/
structure Log where
  Network : Bytes × Bytes
  Filter : Bytes
  T : List Transmission
deriving DecidableEq, Repr

/-- Go `Connection`; `ρ` is the type of parsed requests (`*http.Request`). -/
structure Connection (ρ : Type) where
  Req : ρ
  ReqBody : Option Bytes
  Res : Option Bytes
deriving DecidableEq, Repr

/-- Go `Connections`. -/
abbrev Connections (ρ : Type) := List (List (Connection ρ))

/-- The outcome of a Go function returning `(α, error)`: `(v, nil)`, `(nil, e)`, or a run-time
panic. -/
inductive Ret (α : Type) where
  | ok (v : α)
  | error (e : Err)
  | panic
deriving DecidableEq, Repr

/-- The standard-library functions the reconstruction is parametric in. -/
structure GoLib (ρ : Type) where
  /-- Go `(*net.TCPAddr).String`, defined on the nil pointer too. -/
  TCPAddrString : Option TCPAddr → Bytes
  /-- Go `http.ReadRequest` reading from a buffer holding the given bytes. -/
  ReadRequest : Bytes → Except Err ρ

/-- Go `v4InV6Prefix`. -/
def v4InV6Prefix : Bytes := [0, 0, 0, 0, 0, 0, 0, 0, 0, 0, 255, 255]

/-- Go `net.IP.Equal`. -/
def ipEqual (ip x : Bytes) : Bool :=
  if ip.length = x.length then decide (ip = x)
  else if ip.length = 4 ∧ x.length = 16 then
    decide (x.take 12 = v4InV6Prefix) && decide (ip = x.drop 12)
  else if ip.length = 16 ∧ x.length = 4 then
    decide (ip.take 12 = v4InV6Prefix) && decide (ip.drop 12 = x)
  else false

/-- Go `equal`: `lhs == rhs || (lhs.IP.Equal(rhs.IP) && lhs.Port == rhs.Port)`.  Two nil
pointers are identical; with exactly one nil pointer the second disjunct dereferences it and
the call panics (`none`).  Between two non-nil pointers identity implies the second disjunct
(`IP.Equal` is reflexive), so the result is the second disjunct. -/
def equal (lhs rhs : Option TCPAddr) : Option Bool :=
  match lhs, rhs with
  | none, none => some true
  | some l, some r => some (ipEqual l.IP r.IP && decide (l.Port = r.Port))
  | _, _ => none

/-- Lines 110-115 of `NewConnections`: the group index of `addr`, a new empty group being
appended (and recorded in the map) when the address has not been seen. -/
def groupFor {ρ : Type} (c : Connections ρ) (index : Bytes → Option Nat) (addr : Bytes) :
    Nat × Connections ρ × (Bytes → Option Nat) :=
  match index addr with
  | some n => (n, c, index)
  | none => (c.length, c ++ [[]], fun k => if k = addr then some c.length else index k)

/-- Line 132 of `NewConnections`: `c[n] = append(c[n], conn)`. -/
def appendTo {ρ : Type} (c : Connections ρ) (n : Nat) (conn : Connection ρ) : Connections ρ :=
  c.set n (c.getD n [] ++ [conn])

/-- Lines 116-125 of `NewConnections`: split, parse the header, copy a non-empty body. -/
def newConn {ρ : Type} (lib : GoLib ρ) (raw : Bytes) : Except Err (Connection ρ) :=
  match lib.ReadRequest (SplitHTTP raw).1 with
  | .error e => .error e
  | .ok req =>
    .ok { Req := req
          ReqBody := if 0 < (SplitHTTP raw).2.length then some (SplitHTTP raw).2 else none
          Res := none }

/-- The loop of `NewConnections`; the first argument is the unscanned part `log.T[i:]`. -/
def scan {ρ : Type} (lib : GoLib ρ) :
    List Transmission → Connections ρ → (Bytes → Option Nat) → Ret (Connections ρ)
  | [], c, _ => .ok c
  | t :: rest, c, index =>
    match newConn lib t.Raw with
    | .error e => .error e
    | .ok conn =>
      match rest with
      | [] =>
        .ok (appendTo (groupFor c index (lib.TCPAddrString t.Src)).2.1
              (groupFor c index (lib.TCPAddrString t.Src)).1 conn)
      | t' :: rest' =>
        match equal t.Src t'.Dst with
        | none => .panic
        | some true =>
          scan lib rest'
            (appendTo (groupFor c index (lib.TCPAddrString t.Src)).2.1
              (groupFor c index (lib.TCPAddrString t.Src)).1 { conn with Res := some t'.Raw })
            (groupFor c index (lib.TCPAddrString t.Src)).2.2
        | some false =>
          scan lib (t' :: rest')
            (appendTo (groupFor c index (lib.TCPAddrString t.Src)).2.1
              (groupFor c index (lib.TCPAddrString t.Src)).1 conn)
            (groupFor c index (lib.TCPAddrString t.Src)).2.2

/-- Go `NewConnections`. -/
def NewConnections {ρ : Type} (lib : GoLib ρ) (log : Log) : Ret (Connections ρ) :=
  scan lib log.T [] (fun _ => none)

/-! ### The scan, described by what it visits -/

/-- One visit of the loop: the position scanned as a request, the transmission there, and the
next transmission when the look-ahead consumes it as the reply. -/
structure Slot where
  pos : Nat
  req : Transmission
  reply : Option Transmission
deriving DecidableEq, Repr

/-- The visits of the loop over `log.T[i:]`, as far as the addresses decide them: the scan ends
with the visit whose look-ahead dereferences a nil pointer, if there is one. -/
def slots : Nat → List Transmission → List Slot
  | _, [] => []
  | i, t :: rest =>
    match rest with
    | [] => [⟨i, t, none⟩]
    | t' :: rest' =>
      match equal t.Src t'.Dst with
      | none => [⟨i, t, none⟩]
      | some true => ⟨i, t, some t'⟩ :: slots (i + 2) rest'
      | some false => ⟨i, t, none⟩ :: slots (i + 1) (t' :: rest')

/-- Whether the look-ahead of the last visit dereferences a nil pointer. -/
def nilDeref : List Transmission → Bool
  | [] => false
  | t :: rest =>
    match rest with
    | [] => false
    | t' :: rest' =>
      match equal t.Src t'.Dst with
      | none => true
      | some true => nilDeref rest'
      | some false => nilDeref (t' :: rest')

/-- The positions scanned as requests. -/
def requestPositions (log : Log) : List Nat := (slots 0 log.T).map Slot.pos

/-- The source-address key and the Connection built at a visit. -/
def build {ρ : Type} (lib : GoLib ρ) (s : Slot) : Except Err (Bytes × Connection ρ) :=
  match newConn lib s.req.Raw with
  | .error e => .error e
  | .ok conn =>
    .ok (lib.TCPAddrString s.req.Src, { conn with Res := s.reply.map Transmission.Raw })

/-- The entries built at the visits, in order, or the first parse error. -/
def buildAll {ρ : Type} (lib : GoLib ρ) : List Slot → Except Err (List (Bytes × Connection ρ))
  | [] => .ok []
  | s :: ss =>
    match build lib s with
    | .error e => .error e
    | .ok x =>
      match buildAll lib ss with
      | .error e => .error e
      | .ok xs => .ok (x :: xs)

/-- What one iteration does to the groups and the map, given the entry it built. -/
def insertEntry {ρ : Type} (st : Connections ρ × (Bytes → Option Nat))
    (e : Bytes × Connection ρ) : Connections ρ × (Bytes → Option Nat) :=
  (appendTo (groupFor st.1 st.2 e.1).2.1 (groupFor st.1 st.2 e.1).1 e.2,
    (groupFor st.1 st.2 e.1).2.2)

/-- The distinct elements of a list, in order of first appearance. -/
def firstSeen : List Bytes → List Bytes
  | [] => []
  | a :: l => a :: (firstSeen l).filter (fun k => decide (k ≠ a))

/-- The grouping of the specification: one group per distinct source key, in order of first
appearance, holding the Connections of that key in scan order. -/
def groupBySource {ρ : Type} (es : List (Bytes × Connection ρ)) : Connections ρ :=
  (firstSeen (es.map Prod.fst)).map
    (fun k => (es.filter (fun e => decide (e.1 = k))).map Prod.snd)

/-- The index of a key in a list of keys. -/
def position (k : Bytes) : List Bytes → Option Nat
  | [] => none
  | a :: l => if a = k then some 0 else (position k l).map (fun n => n + 1)

/-- The map kept by the loop, after the entries `es`: the index of each key seen. -/
def seenIndex {ρ : Type} (es : List (Bytes × Connection ρ)) : Bytes → Option Nat :=
  fun k => position k (firstSeen (es.map Prod.fst))

/-- The keys of the source addresses of the transmissions scanned as requests, in scan order. -/
def sourceKeys {ρ : Type} (lib : GoLib ρ) (log : Log) : List Bytes :=
  (slots 0 log.T).map (fun s => lib.TCPAddrString s.req.Src)

/-- The transmissions alternate `A -> B`, `B -> A`, `A -> B`, ..., an even number of them. -/
def alternates (A B : Option TCPAddr) : List Transmission → Bool
  | [] => true
  | [_] => false
  | t :: t' :: rest =>
    decide (t.Src = A) && decide (t.Dst = B) && decide (t'.Src = B) && decide (t'.Dst = A) &&
      alternates A B rest

/-! ### A stand-in library for evaluating the definitions on concrete logs -/

/-- A stand-in for `http.ReadRequest`: the request line must have a method, a target and a
protocol starting with `HTTP/`; the result is the method and the target. -/
def sampleReadRequest (h : Bytes) : Except Err (Bytes × Bytes) :=
  let line := h.takeWhile (fun b => b ≠ 13)
  let method := line.takeWhile (fun b => b ≠ 32)
  let rest := (line.dropWhile (fun b => b ≠ 32)).drop 1
  let uri := rest.takeWhile (fun b => b ≠ 32)
  let proto := (rest.dropWhile (fun b => b ≠ 32)).drop 1
  if h = [] then .error .EOF
  else if method ≠ [] ∧ uri ≠ [] ∧ (ascii "HTTP/").isPrefixOf proto = true then .ok (method, uri)
  else .error (.other (ascii "malformed HTTP request"))

/-- A stand-in for `(*net.TCPAddr).String`: the bytes of the IP, the zone and the port. -/
def sampleAddrString : Option TCPAddr → Bytes
  | none => ascii "<nil>"
  | some a => a.IP ++ 37 :: a.Zone ++ 58 :: ascii (toString a.Port)

/-- The stand-in library. -/
def sampleLib : GoLib (Bytes × Bytes) := ⟨sampleAddrString, sampleReadRequest⟩

/-! ## The replay server (`server.go`) -/

/-- Go `errNoResponse`. -/
def errNoResponse : Err := .other (ascii "fakerpc: no response recorded for the request")

/-- Go `ErrAlreadyRunning`. -/
def ErrAlreadyRunning : Err := .other (ascii "fakerpc: server is already running")

/-- Go `ErrNotRunning`. -/
def ErrNotRunning : Err := .other (ascii "fakerpc: server is not running")

/-- Go `fmt.Sprintf("%d", n)` for a length. -/
def decimal (n : Nat) : Bytes := ascii (toString n)

/-- Go `write500`: the bytes it writes to the connection. -/
def write500 (err : Err) : Bytes :=
  ascii "HTTP/1.1 500 Internal Server Error\r\nContent-Length: " ++ decimal err.Error.length ++
    ascii "\r\nContent-Type: text/plain; charset=utf-8\r\n\r\n" ++ err.Error

/-- One call of `http.ReadRequest(r)` in `ServeConn`: a request, with the byte count and the
error of draining its body (`io.Copy(ioutil.Discard, req.Body)`), or a read error. -/
inductive Read (ρ : Type) where
  | request (req : ρ) (n : Int) (err : Option Err)
  | fail (err : Err)
deriving DecidableEq, Repr

/-- One call of `srv.Reply(src, dst, bodyLen, err)`. -/
structure Notification where
  src : Option TCPAddr
  dst : Option TCPAddr
  bodyLen : Int
  err : Option Err
deriving DecidableEq, Repr

/-- What `ServeConn` has done to its connection: the bytes written, the notifications made, and
whether it has closed the connection and signalled `wg.Done()`. -/
structure Served where
  written : Bytes
  replies : List Notification
  closed : Bool
deriving DecidableEq, Repr

/-- The loop of `ServeConn` at iteration `i`, given the results of the coming calls of
`http.ReadRequest`; when they run out the task stays blocked in the read.  Writes to the
connection succeed. -/
def serveLoop {ρ : Type} (src rem : Option TCPAddr) (c : List (Connection ρ)) :
    Nat → List (Read ρ) → Served → Served
  | _, [], st => st
  | _, .fail err :: _, st =>
    { written := st.written
      replies := if err ≠ Err.EOF then st.replies ++ [⟨rem, src, 0, some err⟩] else st.replies
      closed := true }
  | i, .request _ n derr :: rest, st =>
    match (c)[i]? with
    | none =>
      serveLoop src rem c (i + 1) rest
        { st with written := st.written ++ write500 errNoResponse
                  replies := st.replies ++ [⟨rem, src, n, some errNoResponse⟩] }
    | some conn =>
      match derr with
      | some err =>
        serveLoop src rem c (i + 1) rest
          { st with written := st.written ++ write500 err
                    replies := st.replies ++ [⟨rem, src, n, some err⟩] }
      | none =>
        match conn.Res with
        | some res =>
          serveLoop src rem c (i + 1) rest
            { st with written := st.written ++ res
                      replies := st.replies ++
                        [⟨rem, src, n, none⟩, ⟨src, rem, (res.length : Int), none⟩] }
        | none =>
          serveLoop src rem c (i + 1) rest
            { st with replies := st.replies ++ [⟨rem, src, n, none⟩] }

/-- Go `Server.ServeConn`, for a server bound at `src` and a connection from `rem`. -/
def ServeConn {ρ : Type} (src rem : Option TCPAddr) (c : List (Connection ρ))
    (reads : List (Read ρ)) : Served :=
  serveLoop src rem c 0 reads ⟨[], [], false⟩

/-- What the `i`-th request of a connection is answered with: the recorded response, nothing
when none was recorded, the 500 message past the end of the group. -/
def answer {ρ : Type} (c : List (Connection ρ)) (i : Nat) : Bytes :=
  match (c)[i]? with
  | some conn => conn.Res.getD []
  | none => write500 errNoResponse

/-- The fields of Go `Server` that the accept loop reads and writes: `listening` says that
`srv.l` is an open listener, `wg` and `wgr` are the counters of the two wait groups. -/
structure Server (ρ : Type) where
  conn : Connections ρ
  isrun : Nat
  count : Nat
  wg : Nat
  wgr : Int
  listening : Bool
deriving DecidableEq, Repr

/-- Go `NewServer`: the server and the error of `NewConnections`; `none` when that panics. -/
def NewServer {ρ : Type} (lib : GoLib ρ) (log : Log) : Option (Server ρ × Option Err) :=
  match NewConnections lib log with
  | .ok c => some (⟨c, 0, 0, 0, 1, false⟩, none)
  | .error e => some (⟨[], 0, 0, 0, 1, false⟩, some e)
  | .panic => none

/-- Go `Server.Stop`. -/
def Server.Stop {ρ : Type} (srv : Server ρ) : Server ρ × Option Err :=
  if srv.isrun = 1 then
    ({ srv with isrun := 0, listening := false, wgr := srv.wgr + 1 }, none)
  else (srv, some ErrNotRunning)

/-- Where the goroutine that called `ListenAndServe` stands. -/
inductive Phase where
  /-- No call is in progress. -/
  | idle
  /-- The call is blocked in `srv.l.Accept()`. -/
  | accepting
  /-- The call has left the loop and is blocked in `srv.wg.Wait()`. -/
  | waiting
  /-- The call panicked: `srv.conn[srv.count]` was out of range. -/
  | panicked
deriving DecidableEq, Repr

/-- What happens to a running server. -/
inductive Event where
  /-- `ListenAndServe` is called and binds its listener. -/
  | start
  /-- A client connects; a pending `Accept` returns the connection. -/
  | connect (id : Nat)
  /-- `Stop` is called from another goroutine. -/
  | stop
  /-- A dispatched `ServeConn` finishes (`wg.Done()`). -/
  | done
deriving DecidableEq, Repr

/-- The server together with the control point of `ListenAndServe` and a record of what it
did: the connections `Accept` returned, the `go srv.ServeConn(conn, c)` dispatched, and for each
return of a bound `ListenAndServe` its error and the outstanding-task counter at that moment. -/
structure Sys (ρ : Type) where
  srv : Server ρ
  phase : Phase
  accepted : List Nat
  dispatched : List (Nat × List (Connection ρ))
  returns : List (Option Err × Nat)
deriving DecidableEq, Repr

/-- A freshly constructed server, nothing called yet. -/
def Sys.fresh {ρ : Type} (srv : Server ρ) : Sys ρ := ⟨srv, .idle, [], [], []⟩

/-- Lines 119-126 of `ListenAndServe`, after `Accept` returned the connection `id`. -/
def accept {ρ : Type} (s : Sys ρ) (id : Nat) : Sys ρ :=
  match s.srv.conn[s.srv.count]? with
  | none =>
    { s with srv := { s.srv with isrun := 0 }, phase := .panicked,
             accepted := s.accepted ++ [id] }
  | some c =>
    if s.srv.count + 1 = s.srv.conn.length then
      { srv := ({ s.srv with count := s.srv.count + 1, wg := s.srv.wg + 1 } : Server ρ).Stop.1
        phase := .waiting
        accepted := s.accepted ++ [id]
        dispatched := s.dispatched ++ [(id, c)]
        returns := s.returns }
    else
      { srv := { s.srv with count := s.srv.count + 1, wg := s.srv.wg + 1 }
        phase := .accepting
        accepted := s.accepted ++ [id]
        dispatched := s.dispatched ++ [(id, c)]
        returns := s.returns }

/-- One event.  `start` is taken when no call of `ListenAndServe` is in progress; a call made
while the server runs returns `ErrAlreadyRunning` and changes nothing.  The deferred function
of `ListenAndServe` clears `isrun` when it is still set and drops the error otherwise. -/
def step {ρ : Type} (s : Sys ρ) : Event → Sys ρ
  | .start =>
    if s.phase = .idle ∧ s.srv.isrun = 0 then
      { s with srv := { s.srv with isrun := 1, listening := true, wgr := s.srv.wgr - 1 },
               phase := .accepting }
    else s
  | .connect id =>
    if s.phase = .accepting ∧ s.srv.listening = true then accept s id else s
  | .stop =>
    if s.srv.isrun = 1 then
      if s.phase = .accepting then
        { s with srv := s.srv.Stop.1, phase := .idle,
                 returns := s.returns ++ [(none, s.srv.wg)] }
      else { s with srv := s.srv.Stop.1 }
    else s
  | .done =>
    if 0 < s.srv.wg then
      if s.phase = .waiting ∧ s.srv.wg = 1 then
        { s with srv := { s.srv with wg := 0, isrun := 0 }, phase := .idle,
                 returns := s.returns ++ [(none, 0)] }
      else { s with srv := { s.srv with wg := s.srv.wg - 1 } }
    else s

/-- A run: the events in order. -/
def run {ρ : Type} (s : Sys ρ) (evs : List Event) : Sys ρ := evs.foldl step s


/-! ### Sample logs -/

/-- The client address `10.0.0.1:5000`. -/
def sampleA : Option TCPAddr := some ⟨[10, 0, 0, 1], 5000, []⟩

/-- The server address `10.0.0.2:80`. -/
def sampleB : Option TCPAddr := some ⟨[10, 0, 0, 2], 80, []⟩

/-- A third address `10.0.0.3:80`. -/
def sampleC : Option TCPAddr := some ⟨[10, 0, 0, 3], 80, []⟩

/-- A request without body. -/
def sampleRequest : Bytes := ascii "GET / HTTP/1.1\r\nHost: x\r\n\r\n"

/-- A recorded reply. -/
def sampleReply : Bytes := ascii "HTTP/1.1 200 OK\r\nContent-Length: 0\r\n\r\n"

/-- The log without transmissions. -/
def emptyLog : Log := ⟨([], []), [], []⟩

/-- One request `A -> B` and its reply `B -> A`. -/
def pairLog : Log := ⟨([], []), [], [⟨sampleA, sampleB, sampleRequest⟩, ⟨sampleB, sampleA, sampleReply⟩]⟩

/-- A request `A -> B` followed by a transmission `C -> A` from a third address. -/
def strayLog : Log := ⟨([], []), [], [⟨sampleA, sampleB, sampleRequest⟩, ⟨sampleC, sampleA, sampleReply⟩]⟩

/-- A single transmission without header/body boundary. -/
def garbageLog : Log := ⟨([], []), [], [⟨sampleA, sampleB, ascii "GET / HTTP/1.1\r\n"⟩]⟩

/-- A request with its reply, then a request nothing follows. -/
def trailingLog : Log :=
  ⟨([], []), [], [⟨sampleA, sampleB, sampleRequest⟩, ⟨sampleB, sampleA, sampleReply⟩,
    ⟨sampleA, sampleB, sampleRequest⟩]⟩

/-- Requests of two sources, interleaved: `A`, `C`, `A`. -/
def twoSourceLog : Log :=
  ⟨([], []), [], [⟨sampleA, sampleB, sampleRequest⟩, ⟨sampleB, sampleA, sampleReply⟩,
    ⟨sampleC, sampleB, sampleRequest⟩, ⟨sampleA, sampleB, sampleRequest⟩]⟩

/-! ## The splitter -/

theorem indexFrom_eq_neg_one (sep : Bytes) (p : Bytes) (i : Nat) :
    indexFrom sep p i = -1 ↔ ∀ m, ¬ sep <+: p.drop m := by
  induction p generalizing i with
  | nil =>
    simp only [indexFrom, List.isPrefixOf_iff_prefix, List.drop_nil]
    constructor
    · intro h m
      by_contra hc
      rw [if_pos hc] at h
      omega
    · intro h
      rw [if_neg (h 0)]
  | cons b rest ih =>
    simp only [indexFrom, List.isPrefixOf_iff_prefix]
    constructor
    · intro h m
      by_cases hc : sep <+: b :: rest
      · rw [if_pos hc] at h
        omega
      · rw [if_neg hc] at h
        cases m with
        | zero => simpa using hc
        | succ m => simpa using (ih (i + 1)).1 h m
    · intro h
      have h0 : ¬ sep <+: b :: rest := by simpa using h 0
      rw [if_neg h0]
      exact (ih (i + 1)).2 (fun m => by simpa using h (m + 1))

theorem indexFrom_first (sep : Bytes) (p : Bytes) (i n : Nat)
    (hn : sep <+: p.drop n) (hmin : ∀ m, m < n → ¬ sep <+: p.drop m) :
    indexFrom sep p i = ((i + n : Nat) : Int) := by
  induction p generalizing i n with
  | nil =>
    have h0 : sep <+: [] := by simpa using hn
    cases n with
    | zero => simp [indexFrom, List.isPrefixOf_iff_prefix, h0]
    | succ n => exact absurd (by simpa using h0) (hmin 0 (Nat.succ_pos n))
  | cons b rest ih =>
    cases n with
    | zero =>
      have h0 : sep <+: b :: rest := by simpa using hn
      simp [indexFrom, List.isPrefixOf_iff_prefix, h0]
    | succ n =>
      have h0 : ¬ sep <+: b :: rest := by simpa using hmin 0 (Nat.succ_pos n)
      have hn' : sep <+: rest.drop n := by simpa using hn
      have hmin' : ∀ m, m < n → ¬ sep <+: rest.drop m := by
        intro m hm
        simpa using hmin (m + 1) (Nat.succ_lt_succ hm)
      simp only [indexFrom, List.isPrefixOf_iff_prefix, if_neg h0]
      rw [ih (i + 1) n hn' hmin']
      congr 1
      omega

theorem infix_iff_prefix_drop (sep p : Bytes) :
    sep <:+: p ↔ ∃ n, sep <+: p.drop n := by
  constructor
  · rintro ⟨s, t, rfl⟩
    refine ⟨s.length, t, ?_⟩
    simp [List.append_assoc]
  · rintro ⟨n, t, ht⟩
    refine ⟨p.take n, t, ?_⟩
    rw [List.append_assoc, ht, List.take_append_drop]

theorem exists_firstBoundary (p : Bytes) (h : boundary <:+: p) : ∃ n, FirstBoundary p n := by
  classical
  have h' : ∃ n, boundary <+: p.drop n := (infix_iff_prefix_drop boundary p).1 h
  exact ⟨Nat.find h', Nat.find_spec h', fun m hm => Nat.find_min h' hm⟩

theorem SplitHTTP_of_first (p : Bytes) (n : Nat) (h : FirstBoundary p n) :
    SplitHTTP p = (p.take (n + 4), p.drop (n + 4)) := by
  have hi : bytesIndex p boundary = (n : Int) := by
    have := indexFrom_first boundary p 0 n h.1 h.2
    simpa [bytesIndex] using this
  have hne : (n : Int) ≠ -1 := by omega
  have ht : ((n : Int) + 4).toNat = n + 4 := by omega
  simp only [SplitHTTP, hi, if_pos hne, ht]

theorem SplitHTTP_of_absent (p : Bytes) (h : ¬ boundary <:+: p) : SplitHTTP p = ([], []) := by
  have hi : bytesIndex p boundary = -1 := by
    refine (indexFrom_eq_neg_one boundary p 0).2 (fun m hm => h ?_)
    exact (infix_iff_prefix_drop boundary p).2 ⟨m, hm⟩
  simp [SplitHTTP, hi]

theorem prefix_drop_length_le (sep p : Bytes) (m : Nat) (h : sep <+: p.drop m)
    (hs : sep ≠ []) : m + sep.length ≤ p.length := by
  have hl := h.length_le
  rw [List.length_drop] at hl
  have : 0 < sep.length := List.length_pos.2 hs
  omega

theorem prefix_drop_take (sep p : Bytes) (m k : Nat) (h : sep <+: (p.take k).drop m) :
    sep <+: p.drop m := by
  rw [List.drop_take] at h
  exact h.trans (List.take_prefix _ _)

theorem take_boundary_suffix (p : Bytes) (n : Nat) (h : boundary <+: p.drop n) :
    boundary <:+ p.take (n + 4) := by
  obtain ⟨t, ht⟩ := h
  refine ⟨p.take n, ?_⟩
  rw [List.take_add, ← ht]
  rfl

theorem SplitHTTP_isReferenceSplit (p : Bytes) : IsReferenceSplit p (SplitHTTP p) := by
  refine ⟨exists_firstBoundary p, ?_, SplitHTTP_of_absent p⟩
  intro n hn
  rw [SplitHTTP_of_first p n hn]
  refine ⟨rfl, rfl, List.take_append_drop _ _, take_boundary_suffix p n hn.1, ?_⟩
  intro m hm
  have h1 : boundary <+: p.drop m := prefix_drop_take boundary p m (n + 4) hm
  have h2 : ¬ m < n := fun hlt => hn.2 m hlt h1
  have h3 : m + boundary.length ≤ (p.take (n + 4)).length :=
    prefix_drop_length_le boundary _ m hm (by decide)
  have h4 : (p.take (n + 4)).length ≤ n + 4 := by
    rw [List.length_take]; omega
  have h5 : boundary.length = 4 := rfl
  omega

/-- C3: `SplitHTTP` is the reference split (header through the first boundary, body after it,
both empty when there is no boundary), and it splits the sample message as the specification
says. -/
theorem SplitHTTP_reference :
    (∀ p : Bytes, IsReferenceSplit p (SplitHTTP p)) ∧
    SplitHTTP (ascii "GET / HTTP/1.1\r\nHost: x\r\n\r\nBODY") =
      (ascii "GET / HTTP/1.1\r\nHost: x\r\n\r\n", ascii "BODY") :=
  ⟨SplitHTTP_isReferenceSplit, by decide⟩


/-! ## The reconstruction -/

section Reconstruction

variable {ρ : Type}

theorem scan_cons_cons (lib : GoLib ρ) (t t' : Transmission) (rest' : List Transmission)
    (c : Connections ρ) (index : Bytes → Option Nat) :
    scan lib (t :: t' :: rest') c index =
      match newConn lib t.Raw with
      | .error e => .error e
      | .ok conn =>
        match equal t.Src t'.Dst with
        | none => .panic
        | some true =>
          scan lib rest'
            (insertEntry (c, index) (lib.TCPAddrString t.Src, { conn with Res := some t'.Raw })).1
            (insertEntry (c, index) (lib.TCPAddrString t.Src, conn)).2
        | some false =>
          scan lib (t' :: rest')
            (insertEntry (c, index) (lib.TCPAddrString t.Src, conn)).1
            (insertEntry (c, index) (lib.TCPAddrString t.Src, conn)).2 := by
  rw [scan]
  rfl

theorem slots_cons_cons (i : Nat) (t t' : Transmission) (rest' : List Transmission) :
    slots i (t :: t' :: rest') =
      match equal t.Src t'.Dst with
      | none => [⟨i, t, none⟩]
      | some true => ⟨i, t, some t'⟩ :: slots (i + 2) rest'
      | some false => ⟨i, t, none⟩ :: slots (i + 1) (t' :: rest') := by
  rw [slots]

theorem nilDeref_cons_cons (t t' : Transmission) (rest' : List Transmission) :
    nilDeref (t :: t' :: rest') =
      match equal t.Src t'.Dst with
      | none => true
      | some true => nilDeref rest'
      | some false => nilDeref (t' :: rest') := by
  rw [nilDeref]

theorem newConn_res (lib : GoLib ρ) (raw : Bytes) (conn : Connection ρ)
    (h : newConn lib raw = .ok conn) : conn.Res = none := by
  unfold newConn at h
  cases hr : lib.ReadRequest (SplitHTTP raw).1 with
  | error e => rw [hr] at h; cases h
  | ok req =>
    rw [hr] at h
    cases h
    rfl

theorem scan_single (lib : GoLib ρ) (t : Transmission)
    (c : Connections ρ) (index : Bytes → Option Nat) :
    scan lib [t] c index =
      match newConn lib t.Raw with
      | .error e => .error e
      | .ok conn => .ok (insertEntry (c, index) (lib.TCPAddrString t.Src, conn)).1 := by
  rw [scan]
  rfl

theorem scan_eq_fold (lib : GoLib ρ) :
    ∀ (n : Nat) (L : List Transmission) (i : Nat) (c : Connections ρ)
      (index : Bytes → Option Nat), L.length ≤ n →
      scan lib L c index =
        match buildAll lib (slots i L) with
        | .error e => .error e
        | .ok es => if nilDeref L = true then .panic
                    else .ok (es.foldl insertEntry (c, index)).1 := by
  intro n
  induction n with
  | zero =>
    intro L i c index h
    have : L = [] := List.length_eq_zero.1 (Nat.le_zero.1 h)
    subst this
    simp [scan, slots, buildAll, nilDeref]
  | succ n ih =>
    intro L i c index h
    match L, h with
    | [], _ => simp [scan, slots, buildAll, nilDeref]
    | [t], _ =>
      rw [scan_single]
      simp only [slots, buildAll, nilDeref, build]
      cases hc : newConn lib t.Raw with
      | error e => rfl
      | ok conn =>
        have hr := newConn_res lib t.Raw conn hc
        cases conn
        simp only at hr
        subst hr
        simp
    | t :: t' :: rest', h =>
      have hlen : rest'.length ≤ n ∧ (t' :: rest').length ≤ n := by
        simp only [List.length_cons] at h ⊢
        omega
      rw [scan_cons_cons, slots_cons_cons, nilDeref_cons_cons]
      cases he : equal t.Src t'.Dst with
      | none =>
        simp only [buildAll, build]
        cases hc : newConn lib t.Raw <;> simp
      | some b =>
        cases b with
        | true =>
          simp only [buildAll, build]
          cases hc : newConn lib t.Raw with
          | error e => rfl
          | ok conn =>
            simp only
            rw [ih rest' (i + 2) _ _ hlen.1]
            cases buildAll lib (slots (i + 2) rest') with
            | error e => rfl
            | ok es => 
              simp only [List.foldl_cons, Option.map_some']
              rfl
        | false =>
          simp only [buildAll, build]
          cases hc : newConn lib t.Raw with
          | error e => rfl
          | ok conn =>
            have hr := newConn_res lib t.Raw conn hc
            cases conn
            simp only at hr
            subst hr
            simp only
            rw [ih (t' :: rest') (i + 1) _ _ hlen.2]
            cases buildAll lib (slots (i + 1) (t' :: rest')) with
            | error e => rfl
            | ok es => 
              simp only [List.foldl_cons, Option.map_none']

theorem mem_firstSeen (k : Bytes) (l : List Bytes) : k ∈ firstSeen l ↔ k ∈ l := by
  induction l with
  | nil => simp [firstSeen]
  | cons a l ih =>
    simp only [firstSeen, List.mem_cons, List.mem_filter, ih, decide_eq_true_eq]
    by_cases h : k = a <;> simp [h]

theorem nodup_firstSeen (l : List Bytes) : (firstSeen l).Nodup := by
  induction l with
  | nil => simp [firstSeen]
  | cons a l ih =>
    simp only [firstSeen, List.nodup_cons, List.mem_filter, decide_eq_true_eq]
    exact ⟨fun h => h.2 rfl, ih.filter _⟩

theorem firstSeen_append_singleton (l : List Bytes) (k : Bytes) :
    firstSeen (l ++ [k]) = if k ∈ l then firstSeen l else firstSeen l ++ [k] := by
  induction l with
  | nil => simp [firstSeen]
  | cons a l ih =>
    rw [List.cons_append, firstSeen, ih, firstSeen]
    simp only [List.mem_cons]
    by_cases hka : k = a
    · subst hka
      by_cases hkl : k ∈ l <;> simp [hkl, List.filter_append]
    · by_cases hkl : k ∈ l <;> simp [hkl, hka, List.filter_append]

theorem position_eq_none (k : Bytes) (ks : List Bytes) : position k ks = none ↔ k ∉ ks := by
  induction ks with
  | nil => simp [position]
  | cons a l ih =>
    simp only [position, List.mem_cons]
    by_cases h : a = k
    · simp [h]
    · have h' : ¬ k = a := fun e => h e.symm
      simp [h, h', ih]

theorem position_some (k : Bytes) (ks : List Bytes) (n : Nat) (h : position k ks = some n) :
    ks[n]? = some k := by
  induction ks generalizing n with
  | nil => simp [position] at h
  | cons a l ih =>
    simp only [position] at h
    by_cases ha : a = k
    · rw [if_pos ha] at h
      cases h
      simp [ha]
    · rw [if_neg ha] at h
      cases hp : position k l with
      | none => rw [hp] at h; simp at h
      | some m =>
        rw [hp] at h
        simp only [Option.map_some', Option.some.injEq] at h
        subst h
        simpa using ih m hp

theorem position_append_singleton (ks : List Bytes) (k k' : Bytes) (h : k ∉ ks) :
    position k' (ks ++ [k]) = if k' = k then some ks.length else position k' ks := by
  induction ks with
  | nil =>
    by_cases e : k = k'
    · simp [position, e]
    · have e' : ¬ k' = k := fun x => e x.symm
      simp [position, e, e']
  | cons a l ih =>
    have hak : ¬ k = a := fun e => h (by simp [e])
    have hl : k ∉ l := fun e => h (by simp [e])
    rw [List.cons_append, position, ih hl, position]
    simp only [List.length_cons]
    by_cases e : a = k'
    · have : ¬ k' = k := fun x => hak (by rw [e, x])
      simp [e, this]
    · by_cases e2 : k' = k
      · subst e2
        simp [e]
      · simp [e, e2]

theorem set_map_position {α : Type} (ks : List Bytes) (hnd : ks.Nodup) (k : Bytes) (n : Nat)
    (hp : position k ks = some n) (f : Bytes → List α) (x : α) :
    (ks.map f).set n ((ks.map f).getD n [] ++ [x]) =
      ks.map (fun k' => f k' ++ if k' = k then [x] else []) := by
  induction ks generalizing n with
  | nil => simp [position] at hp
  | cons a l ih =>
    have hnd' := List.nodup_cons.1 hnd
    simp only [position] at hp
    by_cases ha : a = k
    · rw [if_pos ha] at hp
      cases hp
      subst ha
      simp only [List.map_cons, List.set_cons_zero, List.getD_cons_zero, if_true, List.cons.injEq,
        true_and]
      apply List.map_congr_left
      intro k' hk'
      have : ¬ k' = a := fun e => hnd'.1 (e ▸ hk')
      simp [this]
    · rw [if_neg ha] at hp
      cases hq : position k l with
      | none => rw [hq] at hp; simp at hp
      | some m =>
        rw [hq] at hp
        simp only [Option.map_some', Option.some.injEq] at hp
        subst hp
        simp only [List.map_cons, List.set_cons_succ, List.getD_cons_succ, ha, if_false,
          List.append_nil, List.cons.injEq, true_and]
        exact ih hnd'.2 m hq

theorem length_groupBySource (es : List (Bytes × Connection ρ)) :
    (groupBySource es).length = (firstSeen (es.map Prod.fst)).length := by
  simp [groupBySource]

theorem insertEntry_groupBySource (es : List (Bytes × Connection ρ))
    (e : Bytes × Connection ρ) :
    insertEntry (groupBySource es, seenIndex es) e =
      (groupBySource (es ++ [e]), seenIndex (es ++ [e])) := by
  have hfs := firstSeen_append_singleton (es.map Prod.fst) e.1
  cases hp : position e.1 (firstSeen (es.map Prod.fst)) with
  | none =>
    have hnm : e.1 ∉ es.map Prod.fst := by
      rw [← mem_firstSeen]
      exact (position_eq_none _ _).1 hp
    have hnm' : e.1 ∉ firstSeen (es.map Prod.fst) := (position_eq_none _ _).1 hp
    rw [if_neg hnm] at hfs
    have hg : groupFor (groupBySource es) (seenIndex es) e.1 =
        ((groupBySource es).length, groupBySource es ++ [[]],
          fun k => if k = e.1 then some (groupBySource es).length else seenIndex es k) := by
      simp only [groupFor, seenIndex, hp]
    simp only [insertEntry, hg]
    refine Prod.ext ?_ ?_
    · simp only [appendTo]
      rw [List.getD_eq_getElem?_getD, List.getElem?_append_right (le_refl _)]
      simp only [Nat.sub_self, List.getElem?_cons_zero, Option.getD_some, List.nil_append]
      rw [List.set_append_right _ _ (le_refl _)]
      simp only [Nat.sub_self, List.set_cons_zero]
      simp only [groupBySource, List.map_append, List.map_cons, List.map_nil, hfs,
        List.filter_append]
      congr 1
      · apply List.map_congr_left
        intro k hk
        have hne : ¬ e.1 = k := fun h => hnm' (h ▸ hk)
        simp [hne]
      · have : es.filter (fun x => decide (x.1 = e.1)) = [] := by
          rw [List.filter_eq_nil_iff]
          intro x hx
          simp only [decide_eq_true_eq]
          intro h
          exact hnm (List.mem_map.2 ⟨x, hx, h⟩)
        simp [this]
    · funext k
      simp only [seenIndex, List.map_append, List.map_cons, List.map_nil, hfs]
      rw [position_append_singleton _ _ _ hnm', length_groupBySource]
  | some n =>
    have hm : e.1 ∈ es.map Prod.fst := by
      rw [← mem_firstSeen]
      by_contra hc
      rw [(position_eq_none _ _).2 hc] at hp
      cases hp
    rw [if_pos hm] at hfs
    have hg : groupFor (groupBySource es) (seenIndex es) e.1 =
        (n, groupBySource es, seenIndex es) := by
      simp only [groupFor, seenIndex, hp]
    simp only [insertEntry, hg]
    refine Prod.ext ?_ ?_
    · simp only [appendTo, groupBySource]
      rw [set_map_position _ (nodup_firstSeen _) e.1 n hp]
      simp only [List.map_append, List.map_cons, List.map_nil, hfs, List.filter_append]
      apply List.map_congr_left
      intro k hk
      by_cases h : e.1 = k
      · simp [h]
      · have h' : ¬ k = e.1 := fun x => h x.symm
        simp [h, h']
    · funext k
      simp only [seenIndex, List.map_append, List.map_cons, List.map_nil, hfs]

theorem foldl_insertEntry (es : List (Bytes × Connection ρ)) :
    es.foldl insertEntry ([], fun _ => none) = (groupBySource es, seenIndex es) := by
  induction es using List.reverseRecOn with
  | nil => rfl
  | append_singleton es e ih =>
    rw [List.foldl_append, ih]
    simp only [List.foldl_cons, List.foldl_nil]
    exact insertEntry_groupBySource es e

/-- The reconstruction in one formula: the first parse error among the visits; else a panic
when the last look-ahead dereferences nil; else the entries of the visits grouped by source. -/
theorem NewConnections_eq (lib : GoLib ρ) (log : Log) :
    NewConnections lib log =
      match buildAll lib (slots 0 log.T) with
      | .error e => .error e
      | .ok es => if nilDeref log.T = true then .panic else .ok (groupBySource es) := by
  unfold NewConnections
  rw [scan_eq_fold lib log.T.length log.T 0 _ _ (le_refl _)]
  cases buildAll lib (slots 0 log.T) with
  | error e => rfl
  | ok es =>
    simp only [foldl_insertEntry]

theorem pairs_induction (P : Nat → List Transmission → Prop)
    (hnil : ∀ i, P i [])
    (hone : ∀ i t, P i [t])
    (hstep : ∀ i t t' rest, P (i + 2) rest → P (i + 1) (t' :: rest) → P i (t :: t' :: rest)) :
    ∀ i L, P i L := by
  have key : ∀ n i L, List.length L ≤ n → P i L := by
    intro n
    induction n with
    | zero =>
      intro i L h
      have : L = [] := List.length_eq_zero.1 (Nat.le_zero.1 h)
      subst this
      exact hnil i
    | succ n ih =>
      intro i L h
      match L, h with
      | [], _ => exact hnil i
      | [t], _ => exact hone i t
      | t :: t' :: rest, h =>
        have hlen : rest.length ≤ n ∧ (t' :: rest).length ≤ n := by
          simp only [List.length_cons] at h ⊢
          omega
        exact hstep i t t' rest (ih _ _ hlen.1) (ih _ _ hlen.2)
  exact fun i L => key L.length i L (le_refl _)

theorem slots_pos_ge : ∀ i L, ∀ s ∈ slots i L, i ≤ s.pos := by
  apply pairs_induction
  · intro i s hs
    simp [slots] at hs
  · intro i t s hs
    simp only [slots, List.mem_singleton] at hs
    subst hs
    exact le_refl _
  · intro i t t' rest ih2 ih1 s hs
    rw [slots_cons_cons] at hs
    cases he : equal t.Src t'.Dst with
    | none =>
      rw [he] at hs
      simp only [List.mem_singleton] at hs
      subst hs
      exact le_refl _
    | some b =>
      rw [he] at hs
      cases b with
      | true =>
        simp only [List.mem_cons] at hs
        rcases hs with rfl | hs
        · exact le_refl _
        · have := ih2 s hs
          omega
      | false =>
        simp only [List.mem_cons] at hs
        rcases hs with rfl | hs
        · exact le_refl _
        · have := ih1 s hs
          omega

/-- What the look-ahead decides at a visit of the scan over `L = log.T[i:]`. -/
theorem slots_spec : ∀ i L, ∀ s ∈ slots i L,
    L[s.pos - i]? = some s.req ∧
    (match L[s.pos - i + 1]? with
     | none => s.reply = none
     | some r =>
        (equal s.req.Src r.Dst = some true →
          s.reply = some r ∧ ∀ s' ∈ slots i L, s'.pos ≠ s.pos + 1) ∧
        (equal s.req.Src r.Dst = some false →
          s.reply = none ∧ ∃ s' ∈ slots i L, s'.pos = s.pos + 1) ∧
        (equal s.req.Src r.Dst = none → s.reply = none ∧ nilDeref L = true)) := by
  apply pairs_induction
  · intro i s hs
    simp [slots] at hs
  · intro i t s hs
    simp only [slots, List.mem_singleton] at hs
    subst hs
    simp
  · intro i t t' rest ih2 ih1 s hs
    have hge := slots_pos_ge i _ s hs
    have hhead : ∀ rp, (t :: t' :: rest)[(Slot.mk i t rp).pos - i]? = some t ∧
        (t :: t' :: rest)[(Slot.mk i t rp).pos - i + 1]? = some t' := by
      intro rp
      have e0 : (Slot.mk i t rp).pos - i = 0 := Nat.sub_self i
      rw [e0]
      exact ⟨rfl, by simp⟩
    have hnext : ∃ s' ∈ slots (i + 1) (t' :: rest), s'.pos = i + 1 := by
      cases rest with
      | nil => exact ⟨⟨i + 1, t', none⟩, by simp [slots], rfl⟩
      | cons t'' rest'' =>
        rw [slots_cons_cons]
        cases equal t'.Src t''.Dst with
        | none => exact ⟨⟨i + 1, t', none⟩, by simp, rfl⟩
        | some b =>
          cases b with
          | true => exact ⟨⟨i + 1, t', some t''⟩, by simp, rfl⟩
          | false => exact ⟨⟨i + 1, t', none⟩, by simp, rfl⟩
    rw [slots_cons_cons] at hs ⊢
    rw [nilDeref_cons_cons]
    cases he : equal t.Src t'.Dst with
    | none =>
      rw [he] at hs
      simp only [List.mem_singleton] at hs
      subst hs
      rw [(hhead none).1, (hhead none).2]
      refine ⟨rfl, ?_⟩
      dsimp only
      rw [he]
      exact ⟨fun h => (by cases h), fun h => (by cases h), fun _ => ⟨rfl, rfl⟩⟩
    | some b =>
      rw [he] at hs
      cases b with
      | true =>
        simp only [List.mem_cons] at hs
        rcases hs with rfl | hs
        · rw [(hhead (some t')).1, (hhead (some t')).2]
          refine ⟨rfl, ?_⟩
          dsimp only
          rw [he]
          refine ⟨fun _ => ⟨rfl, ?_⟩, fun h => (by cases h), fun h => (by cases h)⟩
          intro s' hs'
          simp only [List.mem_cons] at hs'
          rcases hs' with rfl | hs'
          · dsimp only; omega
          · have := slots_pos_ge _ _ s' hs'
            omega
        · have hge2 := slots_pos_ge _ _ s hs
          obtain ⟨h1, h2⟩ := ih2 s hs
          have e1 : s.pos - i = (s.pos - (i + 2)) + 1 + 1 := by omega
          have e3 : s.pos - i + 1 = (s.pos - (i + 2) + 1) + 1 + 1 := by omega
          rw [e3, e1]
          simp only [List.getElem?_cons_succ]
          refine ⟨h1, ?_⟩
          cases hr : rest[s.pos - (i + 2) + 1]? with
          | none => rw [hr] at h2; exact h2
          | some r =>
            rw [hr] at h2
            dsimp only at h2 ⊢
            refine ⟨fun h => ⟨(h2.1 h).1, ?_⟩, fun h => ⟨(h2.2.1 h).1, ?_⟩, h2.2.2⟩
            · intro s' hs'
              simp only [List.mem_cons] at hs'
              rcases hs' with rfl | hs'
              · dsimp only; omega
              · exact (h2.1 h).2 s' hs'
            · obtain ⟨s', hs', hp⟩ := (h2.2.1 h).2
              exact ⟨s', List.mem_cons_of_mem _ hs', hp⟩
      | false =>
        simp only [List.mem_cons] at hs
        rcases hs with rfl | hs
        · rw [(hhead none).1, (hhead none).2]
          refine ⟨rfl, ?_⟩
          dsimp only
          rw [he]
          refine ⟨fun h => (by cases h), fun _ => ⟨rfl, ?_⟩, fun h => (by cases h)⟩
          obtain ⟨s', hs', hp⟩ := hnext
          exact ⟨s', List.mem_cons_of_mem _ hs', hp⟩
        · have hge2 := slots_pos_ge _ _ s hs
          obtain ⟨h1, h2⟩ := ih1 s hs
          have e1 : s.pos - i = (s.pos - (i + 1)) + 1 := by omega
          rw [e1]
          simp only [List.getElem?_cons_succ]
          refine ⟨h1, ?_⟩
          cases hr : (t' :: rest)[s.pos - (i + 1) + 1]? with
          | none =>
            rw [hr] at h2
            simp only [List.getElem?_cons_succ] at hr
            rw [hr]
            exact h2
          | some r =>
            rw [hr] at h2
            simp only [List.getElem?_cons_succ] at hr
            rw [hr]
            dsimp only at h2 ⊢
            refine ⟨fun h => ⟨(h2.1 h).1, ?_⟩, fun h => ⟨(h2.2.1 h).1, ?_⟩, h2.2.2⟩
            · intro s' hs'
              simp only [List.mem_cons] at hs'
              rcases hs' with rfl | hs'
              · dsimp only; omega
              · exact (h2.1 h).2 s' hs'
            · obtain ⟨s', hs', hp⟩ := (h2.2.1 h).2
              exact ⟨s', List.mem_cons_of_mem _ hs', hp⟩

theorem buildAll_ok_iff (lib : GoLib ρ) (ss : List Slot) (es : List (Bytes × Connection ρ)) :
    buildAll lib ss = .ok es ↔ List.Forall₂ (fun s e => build lib s = .ok e) ss es := by
  induction ss generalizing es with
  | nil =>
    simp only [buildAll, List.forall₂_nil_left_iff]
    constructor
    · intro h; cases h; rfl
    · intro h; rw [h]
  | cons s ss ih =>
    simp only [buildAll]
    constructor
    · intro h
      cases hb : build lib s with
      | error e => rw [hb] at h; cases h
      | ok x =>
        rw [hb] at h
        cases hr : buildAll lib ss with
        | error e => rw [hr] at h; cases h
        | ok xs =>
          rw [hr] at h
          cases h
          exact List.Forall₂.cons hb ((ih xs).1 hr)
    · intro h
      cases h with
      | cons h1 h2 =>
        rw [h1, (ih _).2 h2]

theorem buildAll_error_of_mem (lib : GoLib ρ) (ss : List Slot) (s : Slot) (e : Err)
    (hs : s ∈ ss) (he : build lib s = .error e) : ∃ e', buildAll lib ss = .error e' := by
  induction ss with
  | nil => cases hs
  | cons a ss ih =>
    simp only [buildAll]
    cases hb : build lib a with
    | error e' => exact ⟨e', rfl⟩
    | ok x =>
      have hs' : s ∈ ss := by
        rcases List.mem_cons.1 hs with rfl | h
        · rw [he] at hb; cases hb
        · exact h
      obtain ⟨e', he'⟩ := ih hs'
      exact ⟨e', by rw [he']⟩

theorem buildAll_ok_of_forall (lib : GoLib ρ) (ss : List Slot)
    (h : ∀ s ∈ ss, ∃ x, build lib s = .ok x) : ∃ es, buildAll lib ss = .ok es := by
  induction ss with
  | nil => exact ⟨[], rfl⟩
  | cons a ss ih =>
    obtain ⟨x, hx⟩ := h a (List.mem_cons_self _ _)
    obtain ⟨xs, hxs⟩ := ih (fun s hs => h s (List.mem_cons_of_mem _ hs))
    exact ⟨x :: xs, by simp only [buildAll, hx, hxs]⟩

theorem build_fst (lib : GoLib ρ) (s : Slot) (e : Bytes × Connection ρ)
    (h : build lib s = .ok e) : e.1 = lib.TCPAddrString s.req.Src := by
  unfold build at h
  cases hc : newConn lib s.req.Raw with
  | error e' => rw [hc] at h; cases h
  | ok conn => rw [hc] at h; cases h; rfl

theorem build_res (lib : GoLib ρ) (s : Slot) (e : Bytes × Connection ρ)
    (h : build lib s = .ok e) : e.2.Res = s.reply.map Transmission.Raw := by
  unfold build at h
  cases hc : newConn lib s.req.Raw with
  | error e' => rw [hc] at h; cases h
  | ok conn => rw [hc] at h; cases h; rfl

theorem forall₂_build_keys (lib : GoLib ρ) (ss : List Slot) (es : List (Bytes × Connection ρ))
    (h : List.Forall₂ (fun s e => build lib s = .ok e) ss es) :
    es.map Prod.fst = ss.map (fun s => lib.TCPAddrString s.req.Src) := by
  induction h with
  | nil => rfl
  | cons h1 _ ih => simp only [List.map_cons, ih, build_fst lib _ _ h1]

theorem NewConnections_ok_iff (lib : GoLib ρ) (log : Log) (c : Connections ρ) :
    NewConnections lib log = .ok c ↔
      ∃ es, buildAll lib (slots 0 log.T) = .ok es ∧ nilDeref log.T = false ∧
        c = groupBySource es := by
  rw [NewConnections_eq]
  cases buildAll lib (slots 0 log.T) with
  | error e => simp
  | ok es =>
    cases hn : nilDeref log.T with
    | true => simp
    | false =>
      simp only [Bool.false_eq_true, if_false, Ret.ok.injEq, Except.ok.injEq, true_and,
        exists_eq_left']
      exact eq_comm

theorem length_firstSeen (l : List Bytes) : (firstSeen l).length = l.toFinset.card := by
  rw [← List.toFinset_card_of_nodup (nodup_firstSeen l)]
  congr 1
  ext k
  simp [mem_firstSeen]

theorem position_cons_ne (a k : Bytes) (l : List Bytes) (n : Nat) (h : k ≠ a)
    (hp : position k l = some n) : position k (a :: l) = some (n + 1) := by
  have : ¬ a = k := fun e => h e.symm
  simp [position, this, hp]

theorem position_of_mem (k : Bytes) (l : List Bytes) (h : k ∈ l) : ∃ n, position k l = some n := by
  cases hp : position k l with
  | none => exact absurd h ((position_eq_none k l).1 hp)
  | some n => exact ⟨n, rfl⟩

theorem firstSeen_pairwise (l : List Bytes) :
    (firstSeen l).Pairwise
      (fun a b => ∃ m n, position a l = some m ∧ position b l = some n ∧ m < n) := by
  induction l with
  | nil => simp [firstSeen]
  | cons a l ih =>
    simp only [firstSeen, List.pairwise_cons, List.mem_filter, decide_eq_true_eq]
    constructor
    · rintro b ⟨hb, hne⟩
      obtain ⟨n, hn⟩ := position_of_mem b l ((mem_firstSeen b l).1 hb)
      exact ⟨0, n + 1, by simp [position], position_cons_ne a b l n hne hn, Nat.succ_pos n⟩
    · refine List.Pairwise.imp_of_mem ?_ (ih.filter _)
      intro x y hx hy hxy
      simp only [List.mem_filter, decide_eq_true_eq] at hx hy
      obtain ⟨m, n, hm, hn, hlt⟩ := hxy
      exact ⟨m + 1, n + 1, position_cons_ne a x l m hx.2 hm, position_cons_ne a y l n hy.2 hn,
        Nat.succ_lt_succ hlt⟩

theorem groupBySource_ne_nil (es : List (Bytes × Connection ρ)) :
    ∀ g ∈ groupBySource es, g ≠ [] := by
  intro g hg
  simp only [groupBySource, List.mem_map] at hg
  obtain ⟨k, hk, rfl⟩ := hg
  rw [mem_firstSeen, List.mem_map] at hk
  obtain ⟨e, he, hek⟩ := hk
  intro hnil
  have : e.2 ∈ (es.filter (fun e => decide (e.1 = k))).map Prod.snd :=
    List.mem_map.2 ⟨e, List.mem_filter.2 ⟨he, by simpa using hek⟩, rfl⟩
  rw [hnil] at this
  cases this

/-- C9: on success the groups are those of the distinct source keys of the requests, in order
of first appearance; each group holds the Connections built from the requests of its key in
scan order, and none is empty. -/
theorem NewConnections_groups_first_seen (lib : GoLib ρ) (log : Log) (c : Connections ρ)
    (h : NewConnections lib log = .ok c) :
    ∃ es : List (Bytes × Connection ρ),
      List.Forall₂ (fun s e => build lib s = .ok e) (slots 0 log.T) es ∧
      es.map Prod.fst = sourceKeys lib log ∧
      c.length = (sourceKeys lib log).toFinset.card ∧
      c = (firstSeen (sourceKeys lib log)).map
            (fun k => (es.filter (fun e => decide (e.1 = k))).map Prod.snd) ∧
      (firstSeen (sourceKeys lib log)).Nodup ∧
      (∀ k, k ∈ firstSeen (sourceKeys lib log) ↔ k ∈ sourceKeys lib log) ∧
      (firstSeen (sourceKeys lib log)).Pairwise
        (fun a b => ∃ m n, position a (sourceKeys lib log) = some m ∧
          position b (sourceKeys lib log) = some n ∧ m < n) ∧
      (∀ g ∈ c, g ≠ []) := by
  obtain ⟨es, hb, _, rfl⟩ := (NewConnections_ok_iff lib log c).1 h
  have hf := (buildAll_ok_iff lib _ es).1 hb
  have hk : es.map Prod.fst = sourceKeys lib log := forall₂_build_keys lib _ es hf
  refine ⟨es, hf, hk, ?_, ?_, nodup_firstSeen _, fun k => mem_firstSeen k _,
    firstSeen_pairwise _, groupBySource_ne_nil es⟩
  · rw [length_groupBySource, hk, length_firstSeen]
  · rw [← hk]
    rfl

theorem mem_requestPositions (log : Log) (i : Nat) :
    i ∈ requestPositions log ↔ ∃ s ∈ slots 0 log.T, s.pos = i := by
  simp [requestPositions]

theorem slots_getElem (log : Log) (s : Slot) (hs : s ∈ slots 0 log.T) :
    log.T[s.pos]? = some s.req := by
  simpa using (slots_spec 0 log.T s hs).1

theorem newConn_error_of_no_boundary (lib : GoLib ρ) (raw : Bytes) (e : Err)
    (hempty : lib.ReadRequest [] = .error e) (hb : ¬ boundary <:+: raw) :
    newConn lib raw = .error e := by
  simp only [newConn, SplitHTTP_of_absent raw hb, hempty]

/-- C7: a transmission scanned as a request that has no header/body boundary makes
`NewConnections` return an error and no Connection Set, the empty header block not parsing as a
request. -/
theorem NewConnections_error_of_no_boundary (lib : GoLib ρ) (log : Log) (i : Nat)
    (t : Transmission) (e : Err)
    (hempty : lib.ReadRequest [] = .error e)
    (hi : i ∈ requestPositions log) (ht : log.T[i]? = some t)
    (hb : ¬ boundary <:+: t.Raw) :
    (SplitHTTP t.Raw).1 = [] ∧ ∃ e', NewConnections lib log = .error e' := by
  refine ⟨by rw [SplitHTTP_of_absent t.Raw hb], ?_⟩
  obtain ⟨s, hs, rfl⟩ := (mem_requestPositions log i).1 hi
  have hreq : s.req = t := by
    have := slots_getElem log s hs
    rw [ht] at this
    exact (Option.some.inj this).symm
  have hbuild : build lib s = .error e := by
    simp only [build, hreq, newConn_error_of_no_boundary lib t.Raw e hempty hb]
  obtain ⟨e', he'⟩ := buildAll_error_of_mem lib _ s e hs hbuild
  exact ⟨e', by rw [NewConnections_eq, he']⟩

theorem forall₂_imp_of_mem {α β : Type} {R S : α → β → Prop} {l₁ : List α} {l₂ : List β}
    (h : List.Forall₂ R l₁ l₂) (himp : ∀ a b, a ∈ l₁ → R a b → S a b) :
    List.Forall₂ S l₁ l₂ := by
  induction h with
  | nil => exact List.Forall₂.nil
  | cons h1 _ ih =>
    exact List.Forall₂.cons (himp _ _ (List.mem_cons_self _ _) h1)
      (ih (fun a b ha => himp a b (List.mem_cons_of_mem _ ha)))

/-- C2 (amended): on success, the transmission after a request position is consumed as the
response of the Connection built there exactly when it exists and its destination equals the
request's source (by IP and port; its source is not compared); otherwise the response is absent
and the next position is scanned as a request. -/
theorem NewConnections_lookahead (lib : GoLib ρ) (log : Log) (c : Connections ρ)
    (h : NewConnections lib log = .ok c) :
    ∃ es : List (Bytes × Connection ρ),
      c = groupBySource es ∧
      List.Forall₂
        (fun s e =>
          build lib s = .ok e ∧ log.T[s.pos]? = some s.req ∧
          match log.T[s.pos + 1]? with
          | none => e.2.Res = none
          | some r =>
            if equal s.req.Src r.Dst = some true then
              e.2.Res = some r.Raw ∧ s.pos + 1 ∉ requestPositions log
            else e.2.Res = none ∧ s.pos + 1 ∈ requestPositions log)
        (slots 0 log.T) es := by
  obtain ⟨es, hb, hnd, rfl⟩ := (NewConnections_ok_iff lib log c).1 h
  refine ⟨es, rfl, forall₂_imp_of_mem ((buildAll_ok_iff lib _ es).1 hb) ?_⟩
  intro s e hs hbuild
  have hres := build_res lib s e hbuild
  obtain ⟨h1, h2⟩ := slots_spec 0 log.T s hs
  simp only [Nat.sub_zero] at h1 h2
  refine ⟨hbuild, h1, ?_⟩
  cases hr : log.T[s.pos + 1]? with
  | none =>
    rw [hr] at h2
    dsimp only at h2 ⊢
    rw [hres, h2]
    rfl
  | some r =>
    rw [hr] at h2
    dsimp only at h2 ⊢
    cases he : equal s.req.Src r.Dst with
    | none =>
      have := (h2.2.2 he).2
      rw [hnd] at this
      cases this
    | some b =>
      cases b with
      | true =>
        rw [if_pos rfl, hres, (h2.1 he).1]
        refine ⟨rfl, ?_⟩
        intro hmem
        obtain ⟨s', hs', hp⟩ := (mem_requestPositions log _).1 hmem
        exact (h2.1 he).2 s' hs' hp
      | false =>
        rw [if_neg (by simp), hres, (h2.2.1 he).1]
        exact ⟨rfl, (mem_requestPositions log _).2 (h2.2.1 he).2⟩

theorem slots_last : ∀ i L, ∀ t, List.getLast? L = some t →
    i + L.length - 1 ∈ (slots i L).map Slot.pos →
    ∃ ss, slots i L = ss ++ [⟨i + L.length - 1, t, none⟩] ∧ nilDeref L = false := by
  apply pairs_induction
  · intro i t ht
    cases ht
  · intro i t0 t ht _
    simp only [List.getLast?_singleton, Option.some.injEq] at ht
    subst ht
    exact ⟨[], by simp [slots], by simp [nilDeref]⟩
  · intro i t0 t' rest ih2 ih1 t ht hmem
    have ht' : List.getLast? (t' :: rest) = some t := by
      rw [List.getLast?_cons_cons] at ht
      exact ht
    rw [slots_cons_cons] at hmem ⊢
    rw [nilDeref_cons_cons]
    simp only [List.length_cons] at hmem ⊢
    cases he : equal t0.Src t'.Dst with
    | none =>
      rw [he] at hmem
      simp only [List.map_cons, List.map_nil, List.mem_singleton] at hmem
      omega
    | some b =>
      rw [he] at hmem
      cases b with
      | true =>
        simp only [List.map_cons, List.mem_cons] at hmem
        rcases hmem with hmem | hmem
        · omega
        · cases rest with
          | nil => simp [slots] at hmem
          | cons t'' rest'' =>
            rw [List.getLast?_cons_cons] at ht'
            have e : i + ((t'' :: rest'').length + 1 + 1) - 1 =
                i + 2 + (t'' :: rest'').length - 1 := by omega
            rw [e] at hmem ⊢
            obtain ⟨ss, hss, hnd⟩ := ih2 t ht' hmem
            exact ⟨_ :: ss, by rw [hss]; rfl, hnd⟩
      | false =>
        simp only [List.map_cons, List.mem_cons] at hmem
        rcases hmem with hmem | hmem
        · omega
        · have e : i + (rest.length + 1 + 1) - 1 = i + 1 + (t' :: rest).length - 1 := by
            simp only [List.length_cons]; omega
          rw [e] at hmem ⊢
          obtain ⟨ss, hss, hnd⟩ := ih1 t ht' hmem
          exact ⟨_ :: ss, by rw [hss]; rfl, hnd⟩

theorem forall₂_append_singleton {α β : Type} {R : α → β → Prop} (l₁ : List α) (a : α)
    (l₂ : List β) (h : List.Forall₂ R (l₁ ++ [a]) l₂) :
    ∃ l₂' b, l₂ = l₂' ++ [b] ∧ List.Forall₂ R l₁ l₂' ∧ R a b := by
  induction l₁ generalizing l₂ with
  | nil =>
    cases h with
    | cons h1 h2 =>
      cases h2
      exact ⟨[], _, rfl, List.Forall₂.nil, h1⟩
  | cons x l₁ ih =>
    cases h with
    | cons h1 h2 =>
      obtain ⟨l₂', b, rfl, h3, h4⟩ := ih _ h2
      exact ⟨_ :: l₂', b, rfl, List.Forall₂.cons h1 h3, h4⟩

theorem build_ok_of_parse (lib : GoLib ρ) (s : Slot) (r : ρ)
    (h : lib.ReadRequest (SplitHTTP s.req.Raw).1 = .ok r) : ∃ x, build lib s = .ok x := by
  simp only [build, newConn, h]
  exact ⟨_, rfl⟩

/-- C8: when every transmission scanned as a request parses and the last transmission of a
non-empty log is scanned as a request, `NewConnections` succeeds and the Connection built last,
which is the last element of the group of that transmission's source address, has no
response. -/
theorem NewConnections_trailing_request (lib : GoLib ρ) (log : Log) (t : Transmission)
    (hlast : log.T.getLast? = some t)
    (hparse : ∀ i ∈ requestPositions log, ∀ t', log.T[i]? = some t' →
      ∃ r, lib.ReadRequest (SplitHTTP t'.Raw).1 = .ok r)
    (hreq : log.T.length - 1 ∈ requestPositions log) :
    ∃ (cs : Connections ρ) (es : List (Bytes × Connection ρ)) (n : Nat)
      (g : List (Connection ρ)) (conn : Connection ρ),
      NewConnections lib log = .ok cs ∧
      List.Forall₂ (fun s e => build lib s = .ok e) (slots 0 log.T) es ∧
      es.getLast? = some (lib.TCPAddrString t.Src, conn) ∧
      position (lib.TCPAddrString t.Src) (firstSeen (sourceKeys lib log)) = some n ∧
      cs[n]? = some g ∧ g.getLast? = some conn ∧ conn.Res = none := by
  have hmem : 0 + log.T.length - 1 ∈ (slots 0 log.T).map Slot.pos := by
    rw [Nat.zero_add]; exact hreq
  obtain ⟨ss, hss, hnd⟩ := slots_last 0 log.T t hlast hmem
  have hall : ∀ s ∈ slots 0 log.T, ∃ x, build lib s = .ok x := by
    intro s hs
    obtain ⟨r, hr⟩ := hparse s.pos ((mem_requestPositions log _).2 ⟨s, hs, rfl⟩) s.req
      (slots_getElem log s hs)
    exact build_ok_of_parse lib s r hr
  obtain ⟨es, hes⟩ := buildAll_ok_of_forall lib _ hall
  have hf := (buildAll_ok_iff lib _ es).1 hes
  have hc : NewConnections lib log = .ok (groupBySource es) :=
    (NewConnections_ok_iff lib log _).2 ⟨es, hes, hnd, rfl⟩
  have hkeys : es.map Prod.fst = sourceKeys lib log := forall₂_build_keys lib _ es hf
  have hf' := hf
  rw [hss] at hf'
  obtain ⟨es', e, rfl, _, hbe⟩ := forall₂_append_singleton _ _ _ hf'
  have he1 : e.1 = lib.TCPAddrString t.Src := build_fst lib _ e hbe
  have he2 : e.2.Res = none := build_res lib _ e hbe
  have hkmem : lib.TCPAddrString t.Src ∈ sourceKeys lib log := by
    rw [← hkeys, ← he1]
    simp
  obtain ⟨n, hn⟩ := position_of_mem _ _ ((mem_firstSeen _ _).2 hkmem)
  refine ⟨_, es' ++ [e], n,
    ((es' ++ [e]).filter (fun e' => decide (e'.1 = lib.TCPAddrString t.Src))).map Prod.snd,
    e.2, hc, hf, ?_, hn, ?_, ?_, he2⟩
  · rw [List.getLast?_append, ← he1]
    rfl
  · have := position_some _ _ n hn
    rw [groupBySource, List.getElem?_map, hkeys, this]
    rfl
  · rw [List.filter_append, List.map_append]
    have : List.filter (fun e' : Bytes × Connection ρ => decide (e'.1 = lib.TCPAddrString t.Src))
        [e] = [e] := by
      simp [he1]
    rw [this, List.getLast?_append]
    rfl

theorem ipEqual_self (ip : Bytes) : ipEqual ip ip = true := by
  simp [ipEqual]

theorem equal_self (A : Option TCPAddr) : equal A A = some true := by
  cases A with
  | none => rfl
  | some a => simp [equal, ipEqual_self]

theorem alternates_scan (lib : GoLib ρ) (A B : Option TCPAddr) : ∀ i L,
    alternates A B L = true →
    (∀ k t, L[2 * k]? = some t → ∃ r, lib.ReadRequest (SplitHTTP t.Raw).1 = .ok r) →
    ∃ es, buildAll lib (slots i L) = .ok es ∧ nilDeref L = false ∧
      (∀ e ∈ es, e.1 = lib.TCPAddrString A) ∧ es.length * 2 = L.length ∧
      ∀ k t, L[2 * k + 1]? = some t →
        (es[k]?).map (fun e => e.2.Res) = some (some t.Raw) := by
  apply pairs_induction
  · intro i _ _
    exact ⟨[], rfl, rfl, by simp, rfl, by simp⟩
  · intro i t h
    simp [alternates] at h
  · intro i t0 t' rest ih2 _ halt hparse
    simp only [alternates, Bool.and_eq_true, decide_eq_true_eq] at halt
    obtain ⟨⟨⟨⟨h1, _⟩, _⟩, h4⟩, h5⟩ := halt
    have he : equal t0.Src t'.Dst = some true := by rw [h1, h4]; exact equal_self A
    obtain ⟨r, hr⟩ := hparse 0 t0 rfl
    have hparse' : ∀ k t, rest[2 * k]? = some t →
        ∃ r, lib.ReadRequest (SplitHTTP t.Raw).1 = .ok r := by
      intro k t hk
      apply hparse (k + 1) t
      have : 2 * (k + 1) = 2 * k + 1 + 1 := by ring
      rw [this]
      simpa using hk
    obtain ⟨es, hes, hnd, hkeys, hlen, hres⟩ := ih2 h5 hparse'
    rw [slots_cons_cons, nilDeref_cons_cons, he]
    refine ⟨(lib.TCPAddrString t0.Src,
      { Req := r
        ReqBody := if 0 < (SplitHTTP t0.Raw).2.length then some (SplitHTTP t0.Raw).2 else none
        Res := some t'.Raw }) :: es, ?_, hnd, ?_, ?_, ?_⟩
    · simp only [buildAll, build, newConn, hr, hes, Option.map_some']
    · intro e hmem
      rcases List.mem_cons.1 hmem with rfl | hmem
      · rw [h1]
      · exact hkeys e hmem
    · simp only [List.length_cons]
      omega
    · intro k t hk
      cases k with
      | zero =>
        simp only [Nat.mul_zero, Nat.zero_add, List.getElem?_cons_succ,
          List.getElem?_cons_zero, Option.some.injEq] at hk
        subst hk
        simp only [List.getElem?_cons_zero, Option.map_some']
      | succ k =>
        have : 2 * (k + 1) + 1 = (2 * k + 1) + 1 + 1 := by ring
        rw [this] at hk
        simp only [List.getElem?_cons_succ] at hk ⊢
        exact hres k t hk

theorem firstSeen_const (l : List Bytes) (k : Bytes) (hne : l ≠ []) (h : ∀ x ∈ l, x = k) :
    firstSeen l = [k] := by
  cases l with
  | nil => exact absurd rfl hne
  | cons a l =>
    have ha : a = k := h a (List.mem_cons_self _ _)
    subst ha
    simp only [firstSeen, List.cons.injEq, true_and, List.filter_eq_nil_iff, decide_eq_true_eq,
      not_not]
    intro x hx
    exact h x (List.mem_cons_of_mem _ ((mem_firstSeen x l).1 hx))

theorem groupBySource_const (es : List (Bytes × Connection ρ)) (k : Bytes) (hne : es ≠ [])
    (h : ∀ e ∈ es, e.1 = k) : groupBySource es = [es.map Prod.snd] := by
  have hfs : firstSeen (es.map Prod.fst) = [k] := by
    apply firstSeen_const
    · simpa using hne
    · intro x hx
      obtain ⟨e, he, rfl⟩ := List.mem_map.1 hx
      exact h e he
  have hfilter : es.filter (fun e => decide (e.1 = k)) = es := by
    rw [List.filter_eq_self]
    intro e he
    simpa using h e he
  simp only [groupBySource, hfs, List.map_cons, List.map_nil, hfilter]

/-- C1 (amended): a log of `N` transmissions alternating `A -> B`, `B -> A`, ... whose requests
parse gives no error; for `N ≥ 2` the set has exactly one group of `N / 2` Connections, each
with the raw bytes of the reply that followed its request as present response; for `N = 0` the
set has no group. -/
theorem NewConnections_alternating (lib : GoLib ρ) (log : Log) (A B : Option TCPAddr)
    (halt : alternates A B log.T = true)
    (hparse : ∀ k t, log.T[2 * k]? = some t →
      ∃ r, lib.ReadRequest (SplitHTTP t.Raw).1 = .ok r) :
    log.T.length % 2 = 0 ∧
    (log.T = [] → NewConnections lib log = .ok []) ∧
    (log.T ≠ [] → ∃ g, NewConnections lib log = .ok [g] ∧ g.length = log.T.length / 2 ∧
      ∀ k t, log.T[2 * k + 1]? = some t →
        (g[k]?).map Connection.Res = some (some t.Raw)) := by
  obtain ⟨es, hes, hnd, hkeys, hlen, hres⟩ := alternates_scan lib A B 0 log.T halt hparse
  refine ⟨by omega, ?_, ?_⟩
  · intro hnil
    rw [NewConnections_eq, hnil]
    rfl
  · intro hne
    have hes_ne : es ≠ [] := by
      intro h
      rw [h] at hlen
      exact hne (List.length_eq_zero.1 hlen.symm)
    refine ⟨es.map Prod.snd, ?_, ?_, ?_⟩
    · rw [(NewConnections_ok_iff lib log _).2 ⟨es, hes, hnd, rfl⟩,
        groupBySource_const es _ hes_ne hkeys]
    · rw [List.length_map]
      omega
    · intro k t hk
      have := hres k t hk
      rw [List.getElem?_map, Option.map_map]
      exact this

/-- C1, counterexample: for `N = 0` the log alternates (vacuously) and nothing has to parse, yet
the set returned has no group, not exactly one. -/
theorem NewConnections_empty_log_no_group :
    alternates sampleA sampleB emptyLog.T = true ∧ emptyLog.T.length = 0 ∧
    NewConnections sampleLib emptyLog = .ok [] ∧
    ¬ ∃ g, NewConnections sampleLib emptyLog = .ok [g] := by
  refine ⟨by decide, by decide, by decide, ?_⟩
  rintro ⟨g, hg⟩
  have h : NewConnections sampleLib emptyLog = .ok [] := by decide
  rw [h] at hg
  cases hg

theorem pairLog_parses : ∀ k t, pairLog.T[2 * k]? = some t →
    ∃ r, sampleLib.ReadRequest (SplitHTTP t.Raw).1 = .ok r := by
  intro k t h
  cases k with
  | zero =>
    have : t = ⟨sampleA, sampleB, sampleRequest⟩ := by
      simpa [pairLog] using h.symm
    subst this
    exact ⟨(ascii "GET", ascii "/"), rfl⟩
  | succ k =>
    have hlen : pairLog.T.length ≤ 2 * (k + 1) := by
      simp only [pairLog, List.length_cons, List.length_nil]; omega
    rw [List.getElem?_eq_none hlen] at h
    cases h

/-- C1, witness: the amended claim at the log of one request and its reply. -/
theorem NewConnections_alternating_witness :
    alternates sampleA sampleB pairLog.T = true ∧
    (pairLog.T.length % 2 = 0 ∧
      (pairLog.T = [] → NewConnections sampleLib pairLog = .ok []) ∧
      (pairLog.T ≠ [] → ∃ g, NewConnections sampleLib pairLog = .ok [g] ∧
        g.length = pairLog.T.length / 2 ∧
        ∀ k t, pairLog.T[2 * k + 1]? = some t →
          (g[k]?).map Connection.Res = some (some t.Raw))) :=
  ⟨by decide, NewConnections_alternating sampleLib pairLog sampleA sampleB (by decide)
    pairLog_parses⟩

/-- C2, counterexample: the transmission `C -> A` that follows the request `A -> B` is consumed
as its response although its source `C` does not equal the request's destination `B`; position
1 is not scanned as a request. -/
theorem NewConnections_consumes_stray_reply :
    strayLog.T = [⟨sampleA, sampleB, sampleRequest⟩, ⟨sampleC, sampleA, sampleReply⟩] ∧
    equal sampleA sampleA = some true ∧ equal sampleC sampleB = some false ∧
    NewConnections sampleLib strayLog =
      .ok [[⟨(ascii "GET", ascii "/"), none, some sampleReply⟩]] ∧
    requestPositions strayLog = [0] := by
  decide

/-- C2, witness: the amended claim at the log with the stray reply. -/
theorem NewConnections_lookahead_witness :
    NewConnections sampleLib strayLog =
      .ok [[⟨(ascii "GET", ascii "/"), none, some sampleReply⟩]] ∧
    ∃ es : List (Bytes × Connection (Bytes × Bytes)),
      [[(⟨(ascii "GET", ascii "/"), none, some sampleReply⟩ : Connection (Bytes × Bytes))]] =
        groupBySource es ∧
      List.Forall₂
        (fun s e =>
          build sampleLib s = .ok e ∧ strayLog.T[s.pos]? = some s.req ∧
          match strayLog.T[s.pos + 1]? with
          | none => e.2.Res = none
          | some r =>
            if equal s.req.Src r.Dst = some true then
              e.2.Res = some r.Raw ∧ s.pos + 1 ∉ requestPositions strayLog
            else e.2.Res = none ∧ s.pos + 1 ∈ requestPositions strayLog)
        (slots 0 strayLog.T) es :=
  ⟨by decide, NewConnections_lookahead sampleLib strayLog _ (by decide)⟩

/-- C7, witness: the claim at the log whose only transmission has no boundary. -/
theorem NewConnections_error_of_no_boundary_witness :
    (sampleLib.ReadRequest [] = .error .EOF ∧ 0 ∈ requestPositions garbageLog ∧
      garbageLog.T[0]? = some ⟨sampleA, sampleB, ascii "GET / HTTP/1.1\r\n"⟩ ∧
      ¬ boundary <:+: ascii "GET / HTTP/1.1\r\n") ∧
    ((SplitHTTP (ascii "GET / HTTP/1.1\r\n")).1 = [] ∧
      ∃ e', NewConnections sampleLib garbageLog = .error e') :=
  ⟨⟨rfl, by decide, by decide, by decide⟩,
    NewConnections_error_of_no_boundary sampleLib garbageLog 0
      ⟨sampleA, sampleB, ascii "GET / HTTP/1.1\r\n"⟩ .EOF rfl (by decide) (by decide)
      (by decide)⟩

theorem trailingLog_parses : ∀ i ∈ requestPositions trailingLog, ∀ t',
    trailingLog.T[i]? = some t' → ∃ r, sampleLib.ReadRequest (SplitHTTP t'.Raw).1 = .ok r := by
  intro i hi t' ht
  have hp : requestPositions trailingLog = [0, 2] := by decide
  rw [hp] at hi
  simp only [List.mem_cons, List.mem_singleton, List.not_mem_nil, or_false] at hi
  rcases hi with rfl | rfl
  · have : t' = ⟨sampleA, sampleB, sampleRequest⟩ := by simpa [trailingLog] using ht.symm
    subst this
    exact ⟨(ascii "GET", ascii "/"), rfl⟩
  · have : t' = ⟨sampleA, sampleB, sampleRequest⟩ := by simpa [trailingLog] using ht.symm
    subst this
    exact ⟨(ascii "GET", ascii "/"), rfl⟩

/-- C8, witness: the claim at the log of a request with its reply followed by a request that
nothing follows. -/
theorem NewConnections_trailing_request_witness :
    (trailingLog.T.getLast? = some ⟨sampleA, sampleB, sampleRequest⟩ ∧
      trailingLog.T.length - 1 ∈ requestPositions trailingLog) ∧
    ∃ (cs : Connections (Bytes × Bytes)) (es : List (Bytes × Connection (Bytes × Bytes)))
      (n : Nat) (g : List (Connection (Bytes × Bytes))) (conn : Connection (Bytes × Bytes)),
      NewConnections sampleLib trailingLog = .ok cs ∧
      List.Forall₂ (fun s e => build sampleLib s = .ok e) (slots 0 trailingLog.T) es ∧
      es.getLast? = some (sampleLib.TCPAddrString sampleA, conn) ∧
      position (sampleLib.TCPAddrString sampleA)
        (firstSeen (sourceKeys sampleLib trailingLog)) = some n ∧
      cs[n]? = some g ∧ g.getLast? = some conn ∧ conn.Res = none :=
  ⟨⟨by decide, by decide⟩,
    NewConnections_trailing_request sampleLib trailingLog ⟨sampleA, sampleB, sampleRequest⟩
      (by decide) trailingLog_parses (by decide)⟩

/-- C9, witness: the claim at a log with requests of two sources, `A`, `C`, `A`. -/
theorem NewConnections_groups_first_seen_witness :
    NewConnections sampleLib twoSourceLog =
      .ok [[⟨(ascii "GET", ascii "/"), none, some sampleReply⟩,
            ⟨(ascii "GET", ascii "/"), none, none⟩],
           [⟨(ascii "GET", ascii "/"), none, none⟩]] ∧
    ∃ es : List (Bytes × Connection (Bytes × Bytes)),
      List.Forall₂ (fun s e => build sampleLib s = .ok e) (slots 0 twoSourceLog.T) es ∧
      es.map Prod.fst = sourceKeys sampleLib twoSourceLog ∧
      ([[⟨(ascii "GET", ascii "/"), none, some sampleReply⟩,
            ⟨(ascii "GET", ascii "/"), none, none⟩],
           [⟨(ascii "GET", ascii "/"), none, none⟩]] : Connections (Bytes × Bytes)).length =
        (sourceKeys sampleLib twoSourceLog).toFinset.card ∧
      ([[⟨(ascii "GET", ascii "/"), none, some sampleReply⟩,
            ⟨(ascii "GET", ascii "/"), none, none⟩],
           [⟨(ascii "GET", ascii "/"), none, none⟩]] : Connections (Bytes × Bytes)) =
        (firstSeen (sourceKeys sampleLib twoSourceLog)).map
            (fun k => (es.filter (fun e => decide (e.1 = k))).map Prod.snd) ∧
      (firstSeen (sourceKeys sampleLib twoSourceLog)).Nodup ∧
      (∀ k, k ∈ firstSeen (sourceKeys sampleLib twoSourceLog) ↔
        k ∈ sourceKeys sampleLib twoSourceLog) ∧
      (firstSeen (sourceKeys sampleLib twoSourceLog)).Pairwise
        (fun a b => ∃ m n, position a (sourceKeys sampleLib twoSourceLog) = some m ∧
          position b (sourceKeys sampleLib twoSourceLog) = some n ∧ m < n) ∧
      (∀ g ∈ ([[⟨(ascii "GET", ascii "/"), none, some sampleReply⟩,
            ⟨(ascii "GET", ascii "/"), none, none⟩],
           [⟨(ascii "GET", ascii "/"), none, none⟩]] : Connections (Bytes × Bytes)), g ≠ []) :=
  ⟨by decide, NewConnections_groups_first_seen sampleLib twoSourceLog _ (by decide)⟩

end Reconstruction

section Replay

variable {ρ : Type}

theorem serveLoop_written (src rem : Option TCPAddr) (c : List (Connection ρ))
    (reqs : List (ρ × Int)) (fin : Option Err) (i : Nat) (st : Served) :
    (serveLoop src rem c i
      (reqs.map (fun q => Read.request q.1 q.2 none) ++ fin.toList.map Read.fail) st).written =
      st.written ++ ((List.range reqs.length).map (fun j => answer c (i + j))).flatten := by
  induction reqs generalizing i st with
  | nil =>
    cases fin <;> simp [serveLoop]
  | cons q reqs ih =>
    simp only [List.map_cons, List.cons_append, List.length_cons, List.range_succ_eq_map,
      List.flatten_cons, List.map_map, Nat.add_zero]
    rw [serveLoop]
    have hshift : (fun j => answer c (i + j)) ∘ Nat.succ = fun j => answer c (i + 1 + j) := by
      funext j
      simp only [Function.comp, Nat.succ_eq_add_one]
      congr 1
      omega
    rw [hshift]
    cases hc : (c)[i]? with
    | none =>
      simp only [ih, answer, hc, List.append_assoc]
    | some conn =>
      cases hr : conn.Res with
      | none => simp only [hr, ih, answer, hc, Option.getD_none, List.nil_append]
      | some res => simp only [hr, ih, answer, hc, Option.getD_some, List.append_assoc]

/-- C4: for `m` requests whose bodies drain without error, `ServeConn` writes, in order, the
recorded response of the `i`-th Connection of the group (nothing when it has none) and, past
the end of the group, the HTTP/1.1 500 message with the body "fakerpc: no response recorded for
the request" and its length as Content-Length; the output depends on the requests only by
their number, and the loop goes on after a 500 message, whatever ends the stream. -/
theorem ServeConn_replays (src rem : Option TCPAddr) (c : List (Connection ρ))
    (reqs : List (ρ × Int)) (fin : Option Err) :
    (ServeConn src rem c
      (reqs.map (fun q => Read.request q.1 q.2 none) ++ fin.toList.map Read.fail)).written =
      ((List.range reqs.length).map (answer c)).flatten ∧
    (∀ i, ∀ conn ∈ (c)[i]?, answer c i = conn.Res.getD []) ∧
    (∀ i, c.length ≤ i → answer c i = write500 errNoResponse) ∧
    write500 errNoResponse =
      ascii "HTTP/1.1 500 Internal Server Error\r\nContent-Length: 45\r\nContent-Type: text/plain; charset=utf-8\r\n\r\n" ++
        ascii "fakerpc: no response recorded for the request" ∧
    (ascii "fakerpc: no response recorded for the request").length = 45 ∧
    ascii "no response recorded" <:+: ascii "fakerpc: no response recorded for the request" := by
  refine ⟨?_, ?_, ?_, by decide, by decide, by decide⟩
  · have := serveLoop_written src rem c reqs fin 0 ⟨[], [], false⟩
    simpa [ServeConn] using this
  · intro i conn hconn
    simp only [Option.mem_def] at hconn
    simp only [answer, hconn]
  · intro i hi
    simp only [answer, List.getElem?_eq_none hi]


theorem run_cons (s : Sys ρ) (e : Event) (evs : List Event) :
    run s (e :: evs) = run (step s e) evs := rfl

theorem run_connect_of_waiting (s : Sys ρ) (ids : List Nat) (h : s.phase = .waiting) :
    run s (ids.map Event.connect) = s := by
  induction ids with
  | nil => rfl
  | cons id ids ih =>
    rw [List.map_cons, run_cons]
    have : step s (.connect id) = s := by
      simp [step, h]
    rw [this, ih]

theorem accept_loop (n : Nat) : ∀ (s : Sys ρ) (ids : List Nat),
    s.phase = .accepting → s.srv.listening = true → s.srv.isrun = 1 →
    s.srv.count + (n + 1) = s.srv.conn.length → n + 1 ≤ ids.length →
    (run s (ids.map Event.connect)).phase = .waiting ∧
    (run s (ids.map Event.connect)).accepted = s.accepted ++ ids.take (n + 1) ∧
    (run s (ids.map Event.connect)).dispatched =
      s.dispatched ++ (ids.take (n + 1)).zip (s.srv.conn.drop s.srv.count) ∧
    (run s (ids.map Event.connect)).srv.listening = false ∧
    (run s (ids.map Event.connect)).srv.isrun = 0 ∧
    (run s (ids.map Event.connect)).srv.count = s.srv.conn.length ∧
    (run s (ids.map Event.connect)).srv.wg = s.srv.wg + (n + 1) ∧
    (run s (ids.map Event.connect)).srv.conn = s.srv.conn ∧
    (run s (ids.map Event.connect)).returns = s.returns := by
  induction n with
  | zero =>
    intro s ids hp hl hr hc hlen
    cases ids with
    | nil => simp at hlen
    | cons id ids =>
      have hlt : s.srv.count < s.srv.conn.length := by omega
      have hget : s.srv.conn[s.srv.count]? = some (s.srv.conn[s.srv.count]) :=
        List.getElem?_eq_getElem hlt
      have hdrop : s.srv.conn.drop s.srv.count =
          s.srv.conn[s.srv.count] :: s.srv.conn.drop (s.srv.count + 1) :=
        List.drop_eq_getElem_cons hlt
      have hstep : step s (.connect id) =
          { srv := ({ s.srv with count := s.srv.count + 1, wg := s.srv.wg + 1 } :
              Server ρ).Stop.1
            phase := .waiting
            accepted := s.accepted ++ [id]
            dispatched := s.dispatched ++ [(id, s.srv.conn[s.srv.count])]
            returns := s.returns } := by
        simp only [step, hp, hl, and_self, if_true, accept, hget]
        rw [if_pos (by omega)]
      rw [List.map_cons, run_cons, hstep, run_connect_of_waiting _ _ rfl]
      have hstop : ({ s.srv with count := s.srv.count + 1, wg := s.srv.wg + 1 } :
          Server ρ).Stop.1 =
          { s.srv with count := s.srv.count + 1, wg := s.srv.wg + 1, isrun := 0,
                       listening := false, wgr := s.srv.wgr + 1 } := by
        simp only [Server.Stop, hr, if_true]
      rw [hstop]
      refine ⟨rfl, ?_, ?_, rfl, rfl, ?_, rfl, rfl, rfl⟩
      · simp only [Nat.zero_add, List.take_succ_cons, List.take_zero]
      · simp only [Nat.zero_add, List.take_succ_cons, List.take_zero, hdrop, List.zip_cons_cons,
          List.zip_nil_left]
      · simp only; omega
  | succ n ih =>
    intro s ids hp hl hr hc hlen
    cases ids with
    | nil => simp at hlen
    | cons id ids =>
      have hlt : s.srv.count < s.srv.conn.length := by omega
      have hget : s.srv.conn[s.srv.count]? = some (s.srv.conn[s.srv.count]) :=
        List.getElem?_eq_getElem hlt
      have hdrop : s.srv.conn.drop s.srv.count =
          s.srv.conn[s.srv.count] :: s.srv.conn.drop (s.srv.count + 1) :=
        List.drop_eq_getElem_cons hlt
      have hstep : step s (.connect id) =
          { srv := { s.srv with count := s.srv.count + 1, wg := s.srv.wg + 1 }
            phase := .accepting
            accepted := s.accepted ++ [id]
            dispatched := s.dispatched ++ [(id, s.srv.conn[s.srv.count])]
            returns := s.returns } := by
        simp only [step, hp, hl, and_self, if_true, accept, hget]
        rw [if_neg (by omega)]
      rw [List.map_cons, run_cons, hstep]
      have hlen' : n + 1 ≤ ids.length := by
        simp only [List.length_cons] at hlen; omega
      obtain ⟨h1, h2, h3, h4, h5, h6, h7, h8, h9⟩ :=
        ih { srv := { s.srv with count := s.srv.count + 1, wg := s.srv.wg + 1 }
             phase := .accepting
             accepted := s.accepted ++ [id]
             dispatched := s.dispatched ++ [(id, s.srv.conn[s.srv.count])]
             returns := s.returns } ids rfl hl hr (by simp only; omega) hlen'
      refine ⟨h1, ?_, ?_, h4, h5, h6, ?_, h8, h9⟩
      · rw [h2]; simp
      · rw [h3, hdrop, List.take_succ_cons, List.zip_cons_cons, List.append_assoc]
        rfl
      · rw [h7]; simp only; omega

/-- For a set with at least one group, one run of a fresh server against enough incoming
connections accepts as many connections as there are groups, dispatches the `K`-th with the
`K`-th group, stops itself and leaves the accept loop. -/
theorem ListenAndServe_serves_groups (srv : Server ρ) (ids : List Nat)
    (hrun : srv.isrun = 0) (hcount : srv.count = 0) (hG : 0 < srv.conn.length)
    (hids : srv.conn.length ≤ ids.length) :
    (run (Sys.fresh srv) (.start :: ids.map Event.connect)).phase = .waiting ∧
    (run (Sys.fresh srv) (.start :: ids.map Event.connect)).accepted =
      ids.take srv.conn.length ∧
    (run (Sys.fresh srv) (.start :: ids.map Event.connect)).dispatched =
      (ids.take srv.conn.length).zip srv.conn ∧
    (run (Sys.fresh srv) (.start :: ids.map Event.connect)).srv.listening = false ∧
    (run (Sys.fresh srv) (.start :: ids.map Event.connect)).srv.isrun = 0 := by
  have hstart : step (Sys.fresh srv) .start =
      { srv := { srv with isrun := 1, listening := true, wgr := srv.wgr - 1 }
        phase := .accepting, accepted := [], dispatched := [], returns := [] } := by
    simp [step, Sys.fresh, hrun]
  rw [run_cons, hstart]
  obtain ⟨n, hn⟩ : ∃ n, srv.conn.length = n + 1 := ⟨srv.conn.length - 1, by omega⟩
  obtain ⟨h1, h2, h3, h4, h5, _, _, _, _⟩ :=
    accept_loop n
      { srv := { srv with isrun := 1, listening := true, wgr := srv.wgr - 1 }
        phase := .accepting, accepted := [], dispatched := [], returns := [] }
      ids rfl rfl rfl (by simp only [hcount, hn]; omega) (by omega)
  refine ⟨h1, ?_, ?_, h4, h5⟩
  · rw [h2, hn]; rfl
  · rw [h3, hn]; simp [hcount]

/-- The early return: `Stop` called while the loop is blocked in `Accept` makes
`ListenAndServe` return with whatever number of tasks is outstanding. -/
theorem stop_returns_without_waiting (s : Sys ρ) (hp : s.phase = .accepting)
    (hr : s.srv.isrun = 1) :
    (step s .stop).phase = .idle ∧
    (step s .stop).returns = s.returns ++ [(none, s.srv.wg)] ∧
    (step s .stop).srv.wg = s.srv.wg := by
  simp [step, hp, hr, Server.Stop]

/-- C5, the failing input: a server built from the empty log has no group; started, it stays
blocked in `Accept` instead of stopping itself, and the first connection is accepted and makes
`srv.conn[srv.count]` panic, nothing being dispatched. -/
theorem ListenAndServe_empty_set_panics :
    ∃ srv : Server (Bytes × Bytes),
      NewServer sampleLib emptyLog = some (srv, none) ∧ srv.conn.length = 0 ∧
      (run (Sys.fresh srv) [.start]).phase = .accepting ∧
      (run (Sys.fresh srv) [.start, .connect 1]).phase = .panicked ∧
      (run (Sys.fresh srv) [.start, .connect 1]).accepted = [1] ∧
      (run (Sys.fresh srv) [.start, .connect 1]).dispatched = [] :=
  ⟨⟨[], 0, 0, 0, 1, false⟩, by decide, by decide, by decide, by decide, by decide, by decide⟩

/-- C6, the failing input: with two groups, one connection accepted and its task still running,
`Stop` makes `Accept` fail and `ListenAndServe` return at once, the outstanding-task counter
being 1; on the self-stop path the return waits for the counter to reach 0. -/
theorem ListenAndServe_returns_with_task_outstanding :
    ∃ srv : Server (Bytes × Bytes),
      NewServer sampleLib twoSourceLog = some (srv, none) ∧ srv.conn.length = 2 ∧
      (run (Sys.fresh srv) [.start, .connect 1, .stop]).phase = .idle ∧
      (run (Sys.fresh srv) [.start, .connect 1, .stop]).returns = [(none, 1)] ∧
      (run (Sys.fresh srv) [.start, .connect 1, .stop]).srv.wg = 1 ∧
      (run (Sys.fresh srv) [.start, .connect 1, .connect 2, .done]).returns = [] ∧
      (run (Sys.fresh srv) [.start, .connect 1, .connect 2, .done, .done]).returns =
        [(none, 0)] := by
  refine ⟨⟨[[⟨(ascii "GET", ascii "/"), none, some sampleReply⟩,
            ⟨(ascii "GET", ascii "/"), none, none⟩],
           [⟨(ascii "GET", ascii "/"), none, none⟩]], 0, 0, 0, 1, false⟩, ?_, ?_, ?_, ?_, ?_,
    ?_, ?_⟩ <;> decide

/-- C10, the failing input: a server with one group serves its connection, stops itself and
returns; the counter stays at 1, so after a restart the next accepted connection selects
`srv.conn[1]` in a set of length 1 and panics. -/
theorem ListenAndServe_restart_out_of_range :
    ∃ srv : Server (Bytes × Bytes),
      NewServer sampleLib pairLog = some (srv, none) ∧ srv.conn.length = 1 ∧
      (run (Sys.fresh srv) [.start, .connect 1, .done]).phase = .idle ∧
      (run (Sys.fresh srv) [.start, .connect 1, .done]).returns = [(none, 0)] ∧
      (run (Sys.fresh srv) [.start, .connect 1, .done, .start]).phase = .accepting ∧
      (run (Sys.fresh srv) [.start, .connect 1, .done, .start]).srv.count = 1 ∧
      (run (Sys.fresh srv) [.start, .connect 1, .done, .start, .connect 2]).phase =
        .panicked := by
  refine ⟨⟨[[⟨(ascii "GET", ascii "/"), none, some sampleReply⟩]], 0, 0, 0, 1, false⟩,
    ?_, ?_, ?_, ?_, ?_, ?_, ?_⟩ <;> decide

end Replay

end Fakerpc
